import Mathlib

/-!
Verification development for a discrete-event simulator of an OS storage
stack: a round-robin CPU scheduler, a three-segment LFU buffer cache, and
a single-spindle disk driven by a FIFO / LOOK / FLOOK request scheduler.

The Python sources (`config.py`, `disk.py`, `scheduler.py`,
`buffer_cache.py`, `process.py`, `system.py`) are embedded shallowly:
virtual time (Python floats) is modelled by the rationals, mutable object
stores by explicit maps from identifiers to records, `while` loops by
fuelled or well-founded recursion, and the `raise` paths by `Option`.
-/

attribute [local semireducible] Rat.add Rat.sub Rat.mul Rat.inv

namespace DiskSim

/-! ### config.py : simulation constants (times in milliseconds, as ℚ) -/

def DISK_TRACKS : Nat := 10000
def SECTORS_PER_TRACK : Nat := 500
def TRACK_SEEK_TIME : ℚ := 1/2
def EDGE_SEEK_TIME : ℚ := 10
def RPM : Nat := 7500

def ROTATION_LATENCY : ℚ := ((60 * 1000 : ℚ) / RPM) / 2
def SECTOR_RW_TIME : ℚ := ((60 * 1000 : ℚ) / RPM) / SECTORS_PER_TRACK
def TOTAL_SECTORS : Nat := DISK_TRACKS * SECTORS_PER_TRACK

def BUFFER_COUNT : Nat := 5
def SYSCALL_READ_TIME : ℚ := 15/100
def SYSCALL_WRITE_TIME : ℚ := 15/100
def INTERRUPT_HANDLER_TIME : ℚ := 5/100
def TIME_QUANTUM : ℚ := 20
def PROCESS_READ_TIME : ℚ := 7
def PROCESS_WRITE_TIME : ℚ := 7

def LFU_LEFT_SEGMENT_MAX : Nat := 4
def LFU_MIDDLE_SEGMENT_MAX : Nat := 3

def LOOK_MAX_SAME_TRACK : Nat := 5

def FLOOK_PROCESS_FORWARD : Bool := true

/-- Float-equality tolerance used throughout `system.py` (`0.0001` ms). -/
def TOL : ℚ := 1/10000

/-- Python's two-argument `min` on numbers (returns the first argument on
ties), written with a kernel-computable comparison. -/
def rmin (a b : ℚ) : ℚ := if a ≤ b then a else b

/-- Python's `abs` on numbers, kernel-computable. -/
def rabs (a : ℚ) : ℚ := if a < 0 then -a else a

/-! ### disk.py : `DiskRequest` and `HardDisk` -/

/-- `DiskRequest.__init__`: the derived field `track = sector // SECTORS_PER_TRACK`
is computed by the smart constructor `mkDiskRequest` below. -/
structure DiskRequest where
  request_id : Nat
  sector : Nat
  track : Nat
  is_write : Bool
  process_id : Int
  time_created : ℚ
deriving DecidableEq, Repr

/-- `DiskRequest.__init__` performs no validation of `sector`; it only
derives the track by floor division. -/
def mkDiskRequest (request_id sector : Nat) (is_write : Bool)
    (process_id : Int) (time_created : ℚ) : DiskRequest :=
  { request_id := request_id
    sector := sector
    track := sector / SECTORS_PER_TRACK
    is_write := is_write
    process_id := process_id
    time_created := time_created }

structure HardDisk where
  current_track : Nat
  total_seek_time : ℚ
  total_rotational_latency : ℚ
  total_transfer_time : ℚ
  completed_requests : Nat
deriving DecidableEq, Repr

def initHardDisk : HardDisk :=
  { current_track := 0, total_seek_time := 0, total_rotational_latency := 0
    total_transfer_time := 0, completed_requests := 0 }

/-- `HardDisk.calculate_seek_time`. Python subtraction of ints is modelled
in ℚ, so the `tracks - 1 - target` term can go negative exactly as in the
source when the target track is out of range. -/
def calculate_seek_time (d : HardDisk) (target_track : Nat) : ℚ :=
  let direct_time : ℚ := rabs ((target_track : ℚ) - (d.current_track : ℚ)) * TRACK_SEEK_TIME
  let edge_time_to_zero : ℚ := EDGE_SEEK_TIME + (target_track : ℚ) * TRACK_SEEK_TIME
  let edge_time_to_last : ℚ :=
    EDGE_SEEK_TIME + ((DISK_TRACKS : ℚ) - 1 - (target_track : ℚ)) * TRACK_SEEK_TIME
  rmin (rmin direct_time edge_time_to_zero) edge_time_to_last

/-! ### scheduler.py : FIFO / LOOK / FLOOK disk schedulers

Python's `min(candidates, key=lambda r: r.track)` keeps the first
encountered item with the minimal key (it replaces the running best only
on a strictly smaller key); `max` symmetrically replaces only on a
strictly larger key.  `selMin`/`selMax` reproduce that. -/

def selMin (x : DiskRequest) (xs : List DiskRequest) : DiskRequest :=
  xs.foldl (fun b r => if r.track < b.track then r else b) x

def selMax (x : DiskRequest) (xs : List DiskRequest) : DiskRequest :=
  xs.foldl (fun b r => if b.track < r.track then r else b) x

theorem selMin_cons (x y : DiskRequest) (ys : List DiskRequest) :
    selMin x (y :: ys) = selMin (if y.track < x.track then y else x) ys := rfl

theorem selMax_cons (x y : DiskRequest) (ys : List DiskRequest) :
    selMax x (y :: ys) = selMax (if x.track < y.track then y else x) ys := rfl

theorem selMin_mem (x : DiskRequest) (xs : List DiskRequest) :
    selMin x xs ∈ x :: xs := by
  induction xs generalizing x with
  | nil => simp [selMin]
  | cons y ys ih =>
    rw [selMin_cons]
    by_cases h : y.track < x.track
    · rw [if_pos h]
      rcases List.mem_cons.mp (ih y) with h' | h' <;> simp [h']
    · rw [if_neg h]
      rcases List.mem_cons.mp (ih x) with h' | h' <;> simp [h']

theorem selMin_le (x : DiskRequest) (xs : List DiskRequest) :
    ∀ r ∈ x :: xs, (selMin x xs).track ≤ r.track := by
  induction xs generalizing x with
  | nil => simp [selMin]
  | cons y ys ih =>
    intro r hr
    simp only [List.mem_cons] at hr
    rw [selMin_cons]
    by_cases h : y.track < x.track
    · rw [if_pos h]
      rcases hr with rfl | rfl | hr
      · exact le_trans (ih y y (by simp)) (le_of_lt h)
      · exact ih r r (by simp)
      · exact ih y r (by simp [hr])
    · rw [if_neg h]
      rcases hr with rfl | rfl | hr
      · exact ih r r (by simp)
      · exact le_trans (ih x x (by simp)) (le_of_not_lt h)
      · exact ih x r (by simp [hr])

theorem selMax_mem (x : DiskRequest) (xs : List DiskRequest) :
    selMax x xs ∈ x :: xs := by
  induction xs generalizing x with
  | nil => simp [selMax]
  | cons y ys ih =>
    rw [selMax_cons]
    by_cases h : x.track < y.track
    · rw [if_pos h]
      rcases List.mem_cons.mp (ih y) with h' | h' <;> simp [h']
    · rw [if_neg h]
      rcases List.mem_cons.mp (ih x) with h' | h' <;> simp [h']

theorem selMax_ge (x : DiskRequest) (xs : List DiskRequest) :
    ∀ r ∈ x :: xs, r.track ≤ (selMax x xs).track := by
  induction xs generalizing x with
  | nil => simp [selMax]
  | cons y ys ih =>
    intro r hr
    simp only [List.mem_cons] at hr
    rw [selMax_cons]
    by_cases h : x.track < y.track
    · rw [if_pos h]
      rcases hr with rfl | rfl | hr
      · exact le_trans (le_of_lt h) (ih y y (by simp))
      · exact ih r r (by simp)
      · exact ih y r (by simp [hr])
    · rw [if_neg h]
      rcases hr with rfl | rfl | hr
      · exact ih r r (by simp)
      · exact le_trans (le_of_not_lt h) (ih x x (by simp))
      · exact ih x r (by simp [hr])

/-- Stable insertion into a track-sorted list: the new element goes in
front of elements with an equal track that were inserted before it, which
matches the stability of Python's `list.sort`. -/
def insertByTrack (r : DiskRequest) : List DiskRequest → List DiskRequest
  | [] => [r]
  | x :: xs => if x.track < r.track then x :: insertByTrack r xs else r :: x :: xs

/-- `self.queue.sort(key=lambda r: r.track)`: stable sort by track. -/
def sortByTrack : List DiskRequest → List DiskRequest
  | [] => []
  | x :: xs => insertByTrack x (sortByTrack xs)

theorem insertByTrack_perm (r : DiskRequest) (l : List DiskRequest) :
    (insertByTrack r l).Perm (r :: l) := by
  induction l with
  | nil => simp [insertByTrack]
  | cons x xs ih =>
    simp only [insertByTrack]
    by_cases h : x.track < r.track
    · simp only [h, if_pos]
      exact (List.Perm.cons x ih).trans (List.Perm.swap r x xs)
    · simp [h]

theorem sortByTrack_perm (l : List DiskRequest) :
    (sortByTrack l).Perm l := by
  induction l with
  | nil => simp [sortByTrack]
  | cons x xs ih =>
    exact (insertByTrack_perm x (sortByTrack xs)).trans (List.Perm.cons x ih)

theorem sortByTrack_length (l : List DiskRequest) :
    (sortByTrack l).length = l.length :=
  (sortByTrack_perm l).length_eq

theorem mem_sortByTrack {r : DiskRequest} {l : List DiskRequest} :
    r ∈ sortByTrack l ↔ r ∈ l :=
  (sortByTrack_perm l).mem_iff

/-- `LOOKScheduler.get_next_request`'s candidate selection together with
the fallback direction flip: returns the candidate and the (possibly
flipped) direction flag. -/
def chooseCandidate (current_track : Nat) (fwd : Bool)
    (h : DiskRequest) (t : List DiskRequest) : DiskRequest × Bool :=
  if fwd then
    match (h :: t).filter (fun r => decide (current_track ≤ r.track)) with
    | fh :: ft => (selMin fh ft, true)
    | [] => (selMin h t, false)
  else
    match (h :: t).filter (fun r => decide (r.track ≤ current_track)) with
    | fh :: ft => (selMax fh ft, false)
    | [] => (selMax h t, true)

theorem chooseCandidate_mem (current_track : Nat) (fwd : Bool)
    (h : DiskRequest) (t : List DiskRequest) :
    (chooseCandidate current_track fwd h t).1 ∈ h :: t := by
  unfold chooseCandidate
  split
  · split
    · next fh ft heq =>
      have hm : selMin fh ft ∈ fh :: ft := selMin_mem fh ft
      rw [← heq] at hm
      exact List.mem_of_mem_filter hm
    · exact selMin_mem h t
  · split
    · next fh ft heq =>
      have hm : selMax fh ft ∈ fh :: ft := selMax_mem fh ft
      rw [← heq] at hm
      exact List.mem_of_mem_filter hm
    · exact selMax_mem h t

/-- Mutable state of `LOOKScheduler`. -/
structure LOOKState where
  queue : List DiskRequest
  direction_forward : Bool
  same_track_count : Nat
  last_track : Option Nat
deriving DecidableEq, Repr

/-- The body of `LOOKScheduler.get_next_request`, structurally recursive
on a fuel argument.  Every recursive call removes one element from the
queue, so the wrapper `lookGetNext` below supplies exactly
`s.queue.length` fuel and the fuel never runs out on the recursive
path (the fuel-0 case coincides with the empty-queue case). -/
def lookGetNextF (current_track : Nat) : Nat → LOOKState → Option DiskRequest × LOOKState
  | 0, s => (none, s)
  | fuel+1, s =>
    match sortByTrack s.queue with
    | [] => (none, s)
    | h :: t =>
      let cd := chooseCandidate current_track s.direction_forward h t
      if s.last_track = some cd.1.track then
        if LOOK_MAX_SAME_TRACK ≤ s.same_track_count + 1 then
          lookGetNextF current_track fuel
            { queue := (h :: t).erase cd.1
              direction_forward := cd.2
              same_track_count := 0
              last_track := s.last_track }
        else
          (some cd.1,
            { queue := (h :: t).erase cd.1
              direction_forward := cd.2
              same_track_count := s.same_track_count + 1
              last_track := s.last_track })
      else
        (some cd.1,
          { queue := (h :: t).erase cd.1
            direction_forward := cd.2
            same_track_count := 1
            last_track := some cd.1.track })

/-- `LOOKScheduler.get_next_request`: sort the queue by track, pick the
candidate for the current direction (falling back with a direction flip),
then apply the anti-starvation counter: on the `LOOK_MAX_SAME_TRACK`-th
consecutive selection of the same track the candidate is removed without
being returned and the selection recurses on the remaining queue. -/
def lookGetNext (current_track : Nat) (s : LOOKState) :
    Option DiskRequest × LOOKState :=
  lookGetNextF current_track s.queue.length s

/-! ### buffer_cache.py : three-segment LFU cache

Python buffers are mutable objects shared between the segment lists, the
free list and the `sector_to_buffer` dict.  The embedding keeps a single
store `Nat → Buffer` indexed by `buffer_id` and lets the lists and the
sector map hold buffer ids. -/

inductive Seg where
  | left
  | middle
  | right
deriving DecidableEq, Repr

structure Buffer where
  sector : Option Nat
  is_dirty : Bool
  counter : Nat
  segment : Option Seg
deriving DecidableEq, Repr

def initBuffer : Buffer :=
  { sector := none, is_dirty := false, counter := 0, segment := none }

structure Cache where
  size : Nat
  left_max : Nat
  middle_max : Nat
  store : Nat → Buffer
  left_segment : List Nat
  middle_segment : List Nat
  right_segment : List Nat
  free_buffers : List Nat
  sector_to_buffer : Nat → Option Nat
  hits : Nat
  misses : Nat

def updStore (st : Nat → Buffer) (i : Nat) (b : Buffer) : Nat → Buffer :=
  fun j => if j = i then b else st j

def updMap (m : Nat → Option Nat) (k : Nat) (v : Option Nat) : Nat → Option Nat :=
  fun j => if j = k then v else m j

/-- `LFUBufferCache.__init__`. -/
def initCache (size left_max middle_max : Nat) : Cache :=
  { size := size
    left_max := left_max
    middle_max := middle_max
    store := fun _ => initBuffer
    left_segment := []
    middle_segment := []
    right_segment := []
    free_buffers := List.range size
    sector_to_buffer := fun _ => none
    hits := 0
    misses := 0 }

/-- `LFUBufferCache.find_buffer`. -/
def find_buffer (c : Cache) (sector : Nat) : Option Nat :=
  c.sector_to_buffer sector

def setSegTag (st : Nat → Buffer) (i : Nat) (seg : Option Seg) : Nat → Buffer :=
  updStore st i { st i with segment := seg }

/-- The `while len(segment) > seg_max` loops of `_rebalance_segments`:
demote the tail of the source segment to the front of the destination,
retagging the moved buffer, until the source is within its cap.  The
recursion is on fuel; each iteration shortens the source by one, so
`src.length` fuel (supplied by `rebalance`) always suffices. -/
def demoteLoop (seg_max : Nat) (tag : Seg) :
    Nat → (Nat → Buffer) → List Nat → List Nat → (Nat → Buffer) × List Nat × List Nat
  | 0, st, src, dst => (st, src, dst)
  | fuel+1, st, src, dst =>
    if seg_max < src.length then
      match src.getLast? with
      | some i =>
        demoteLoop seg_max tag fuel (setSegTag st i (some tag)) src.dropLast (i :: dst)
      | none => (st, src, dst)
    else (st, src, dst)

/-- `LFUBufferCache._rebalance_segments`. -/
def rebalance (c : Cache) : Cache :=
  let r1 := demoteLoop c.left_max Seg.middle c.left_segment.length
              c.store c.left_segment c.middle_segment
  let r2 := demoteLoop c.middle_max Seg.right r1.2.2.length
              r1.1 r1.2.2 c.right_segment
  { c with store := r2.1
           left_segment := r1.2.1
           middle_segment := r2.2.1
           right_segment := r2.2.2 }

/-- `LFUBufferCache._move_to_left`: remove the buffer from whichever
segment list contains it, bump the counter when the previous segment tag
was middle or right, reinsert at the front of Left and rebalance. -/
def move_to_left (c : Cache) (i : Nat) : Cache :=
  let b := c.store i
  let c1 :=
    if i ∈ c.left_segment then { c with left_segment := c.left_segment.erase i }
    else if i ∈ c.middle_segment then { c with middle_segment := c.middle_segment.erase i }
    else if i ∈ c.right_segment then { c with right_segment := c.right_segment.erase i }
    else c
  let b1 :=
    if b.segment = some Seg.middle ∨ b.segment = some Seg.right then
      { b with counter := b.counter + 1 }
    else b
  let c2 :=
    { c1 with store := updStore c1.store i { b1 with segment := some Seg.left }
              left_segment := i :: c1.left_segment }
  rebalance c2

/-- Python's `min(b.counter for b in bs)` over a non-empty list. -/
def minCounter (x : Nat) (xs : List Nat) : Nat := xs.foldl min x

/-- `LFUBufferCache._get_free_buffer`: free pool first; otherwise the
first clean minimal-counter buffer of Right; otherwise the first
minimal-counter (dirty) buffer of Right; otherwise the tail of Middle;
otherwise the tail of Left; otherwise `none` (the `raise` branch). -/
def get_free_buffer (c : Cache) : Option (Nat × Cache) :=
  match c.free_buffers with
  | i :: rest =>
    some (i, { c with free_buffers := rest, store := setSegTag c.store i none })
  | [] =>
    match c.right_segment with
    | r :: rs =>
      match (r :: rs).filter (fun j => !(c.store j).is_dirty) with
      | cb :: cbs =>
        let m := minCounter (c.store cb).counter (cbs.map (fun j => (c.store j).counter))
        match (r :: rs).find? (fun k => !(c.store k).is_dirty && (c.store k).counter == m) with
        | some i =>
          some (i, { c with right_segment := (r :: rs).erase i
                            store := setSegTag c.store i none })
        | none => none
      | [] =>
        let m := minCounter (c.store r).counter (rs.map (fun j => (c.store j).counter))
        match (r :: rs).find? (fun k => (c.store k).counter == m) with
        | some i =>
          some (i, { c with right_segment := (r :: rs).erase i
                            store := setSegTag c.store i none })
        | none => none
    | [] =>
      match c.middle_segment.getLast? with
      | some i =>
        some (i, { c with middle_segment := c.middle_segment.dropLast
                          store := setSegTag c.store i none })
      | none =>
        match c.left_segment.getLast? with
        | some i =>
          some (i, { c with left_segment := c.left_segment.dropLast
                            store := setSegTag c.store i none })
        | none => none

def setDirty (c : Cache) (i : Nat) (v : Bool) : Cache :=
  { c with store := updStore c.store i { c.store i with is_dirty := v } }

/-- `LFUBufferCache.access_buffer`.  Returns
`(buffer_id, is_hit, need_disk_read, cache)`; `none` models the
`"No available buffers!"` exception. -/
def access_buffer (c : Cache) (sector : Nat) (is_write : Bool) :
    Option (Nat × Bool × Bool × Cache) :=
  match find_buffer c sector with
  | some i =>
    let c1 := { c with hits := c.hits + 1 }
    let c2 := move_to_left c1 i
    let c3 := if is_write then setDirty c2 i true else c2
    some (i, true, false, c3)
  | none =>
    let c1 := { c with misses := c.misses + 1 }
    match get_free_buffer c1 with
    | none => none
    | some (i, c2) =>
      let b := c2.store i
      let c3 :=
        match b.sector with
        | some old_sector => { c2 with sector_to_buffer := updMap c2.sector_to_buffer old_sector none }
        | none => c2
      let c4 :=
        { c3 with
            store := updStore c3.store i
              { sector := some sector, counter := 1, is_dirty := is_write
                segment := some Seg.left }
            sector_to_buffer := updMap c3.sector_to_buffer sector (some i)
            left_segment := i :: c3.left_segment }
      some (i, false, !is_write, rebalance c4)

/-- `LFUBufferCache.get_dirty_buffers` (ids in `self.buffers` order). -/
def get_dirty_buffers (c : Cache) : List Nat :=
  (List.range c.size).filter (fun i => (c.store i).is_dirty)

/-- `LFUBufferCache.remove_buffer_from_cache`. -/
def remove_buffer_from_cache (c : Cache) (i : Nat) : Cache :=
  let b := c.store i
  let c1 :=
    match b.sector with
    | some s =>
      match c.sector_to_buffer s with
      | some _ => { c with sector_to_buffer := updMap c.sector_to_buffer s none }
      | none => c
    | none => c
  { c1 with
      left_segment := c1.left_segment.erase i
      middle_segment := c1.middle_segment.erase i
      right_segment := c1.right_segment.erase i
      store := updStore c1.store i initBuffer
      free_buffers := c1.free_buffers ++ [i] }

/-! ### scheduler.py : the remaining two policies and the polymorphic surface -/

inductive Policy where
  | FIFO
  | LOOK
  | FLOOK
deriving DecidableEq, Repr

/-- The polymorphic scheduler (`DiskScheduler` subclasses) as a sum. -/
inductive Sched where
  | fifo (queue : List DiskRequest)
  | look (st : LOOKState)
  | flook (active incoming : List DiskRequest) (direction_forward : Bool)
deriving DecidableEq, Repr

def create_scheduler : Policy → Sched
  | .FIFO => .fifo []
  | .LOOK => .look { queue := [], direction_forward := true
                     same_track_count := 0, last_track := none }
  | .FLOOK => .flook [] [] FLOOK_PROCESS_FORWARD

/-- `add_request`: FIFO/LOOK append to `queue`, FLOOK appends to `incoming`. -/
def addRequest : Sched → DiskRequest → Sched
  | .fifo q, r => .fifo (q ++ [r])
  | .look st, r => .look { st with queue := st.queue ++ [r] }
  | .flook a inc d, r => .flook a (inc ++ [r]) d

def hasRequests : Sched → Bool
  | .fifo q => !q.isEmpty
  | .look st => !st.queue.isEmpty
  | .flook a inc _ => !a.isEmpty || !inc.isEmpty

/-- The LOOK-style sweep of `FLOOKScheduler.get_next_request` applied to
the active queue (after any swap). -/
def flookSelect (active incoming : List DiskRequest) (dir : Bool)
    (current_track : Nat) : Option DiskRequest × Sched :=
  if dir then
    match active.filter (fun r => decide (current_track ≤ r.track)) with
    | fh :: ft =>
      let cand := selMin fh ft
      (some cand, .flook (active.erase cand) incoming dir)
    | [] =>
      match active with
      | h :: t =>
        let cand := selMin h t
        (some cand, .flook (active.erase cand) incoming (!dir))
      | [] => (none, .flook active incoming dir)
  else
    match active.filter (fun r => decide (r.track ≤ current_track)) with
    | fh :: ft =>
      let cand := selMax fh ft
      (some cand, .flook (active.erase cand) incoming dir)
    | [] =>
      match active with
      | h :: t =>
        let cand := selMax h t
        (some cand, .flook (active.erase cand) incoming (!dir))
      | [] => (none, .flook active incoming dir)

/-- `get_next_request` of the three policies. -/
def getNextRequest : Sched → Nat → Option DiskRequest × Sched
  | .fifo [], _ => (none, .fifo [])
  | .fifo (r :: rest), _ => (some r, .fifo rest)
  | .look st, current_track =>
    let res := lookGetNext current_track st
    (res.1, .look res.2)
  | .flook active incoming dir, current_track =>
    if active.isEmpty then
      if incoming.isEmpty then (none, .flook active incoming dir)
      else flookSelect (sortByTrack incoming) [] dir current_track
    else flookSelect active incoming dir current_track

def schedQueueSize : Sched → Nat
  | .fifo q => q.length
  | .look st => st.queue.length
  | .flook a inc _ => a.length + inc.length

/-! ### process.py : the user-process record -/

inductive PState where
  | ready
  | running
  | blocked
  | finished
deriving DecidableEq, Repr

structure Process where
  pid : Nat
  program : List (Nat × Bool)
  current_index : Nat
  state : PState
  remaining_quantum : ℚ
  waiting_for_io : Bool
  io_request : Option Nat
  total_cpu_time : ℚ
  total_wait_time : ℚ
  total_io_time : ℚ
  start_time : Option ℚ
  finish_time : Option ℚ
  ready_since : Option ℚ
deriving DecidableEq, Repr

/-- `Process.__init__` with an explicit pid and read/write pattern (the
program is the zip of `sector_sequence` and `read_write_pattern`). -/
def mkProcess (pid : Nat) (program : List (Nat × Bool)) : Process :=
  { pid := pid, program := program, current_index := 0, state := .ready
    remaining_quantum := TIME_QUANTUM, waiting_for_io := false, io_request := none
    total_cpu_time := 0, total_wait_time := 0, total_io_time := 0
    start_time := none, finish_time := none, ready_since := none }

def get_progress (p : Process) : ℚ :=
  if p.program.length = 0 then 100
  else ((p.current_index : ℚ) / (p.program.length : ℚ)) * 100

/-! ### system.py : the simulation kernel -/

/-- A structured projection of the detailed trace: one constructor per
family of printed lines that carries the data those lines interpolate. -/
inductive TraceEvt where
  | syscallOp (pid sector : Nat) (is_write : Bool)
  | cacheHit (buf sector : Nat)
  | cacheMiss (sector buf : Nat)
  | reqScheduled (request_id sector : Nat) (is_write : Bool)
  | diskStart (request_id track : Nat)
  | diskInterrupt (request_id : Nat)
  | markedClean (buf sector : Nat)
  | procUnblocked (pid : Nat)
  | flushWrite (buf sector : Nat)
deriving DecidableEq, Repr

structure Sys where
  current_time : ℚ
  disk : HardDisk
  cache : Cache
  sched : Sched
  procs : List Process
  ready_queue : List Nat
  current_process : Option Nat
  blocked_processes : List (Nat × Nat × ℚ)
  total_syscall_time : ℚ
  total_interrupt_time : ℚ
  total_process_time : ℚ
  completed_processes : Nat
  pending_disk_operations : List (ℚ × DiskRequest)
  request_counter : Nat
  crashed : Bool
  trace : List TraceEvt

def lookupProc (ps : List Process) (pid : Nat) : Option Process :=
  ps.find? (fun p => p.pid == pid)

/-- Python's `for p in processes: if p.pid == pid: mutate(p); break`. -/
def updProc : List Process → Nat → (Process → Process) → List Process
  | [], _, _ => []
  | p :: ps, pid, f =>
    if p.pid = pid then f p :: ps else p :: updProc ps pid f

def quantumOf (s : Sys) (pid : Nat) : ℚ :=
  match lookupProc s.procs pid with
  | some p => p.remaining_quantum
  | none => 0

/-- `System._handle_disk_interrupt`. -/
def handle_disk_interrupt (s : Sys) (r : DiskRequest) : Sys :=
  let s := { s with current_time := s.current_time + INTERRUPT_HANDLER_TIME
                    total_interrupt_time := s.total_interrupt_time + INTERRUPT_HANDLER_TIME
                    trace := s.trace ++ [TraceEvt.diskInterrupt r.request_id] }
  let s :=
    match s.current_process with
    | some pid =>
      { s with procs := updProc s.procs pid
                 (fun p => { p with remaining_quantum := p.remaining_quantum - INTERRUPT_HANDLER_TIME }) }
    | none => s
  let s :=
    match find_buffer s.cache r.sector with
    | some i =>
      if r.is_write then
        { s with cache := setDirty s.cache i false
                 trace := s.trace ++ [TraceEvt.markedClean i r.sector] }
      else s
    | none => s
  match s.blocked_processes.find? (fun e => (e.1 : Int) == r.process_id) with
  | some (pid, _, time_blocked) =>
    let s := { s with blocked_processes :=
                 s.blocked_processes.eraseP (fun e => (e.1 : Int) == r.process_id) }
    let io_time := s.current_time - time_blocked
    { s with procs := updProc s.procs pid
               (fun p => { p with state := .ready, waiting_for_io := false
                                  io_request := none
                                  ready_since := some s.current_time
                                  total_io_time := p.total_io_time + io_time })
             ready_queue := s.ready_queue ++ [pid]
             trace := s.trace ++ [TraceEvt.procUnblocked pid] }
  | none => s

/-- The `while self.pending_disk_operations` loop of
`System._process_pending_interrupts`, fuelled: every pass handles and
removes all completions due at the current time. -/
def ppiAux : Nat → Sys → Sys
  | 0, s => s
  | fuel+1, s =>
    if s.pending_disk_operations.isEmpty then s
    else
      let interrupts_now := s.pending_disk_operations.filter
        (fun e => decide (rabs (e.1 - s.current_time) < TOL))
      if interrupts_now.isEmpty then s
      else
        ppiAux fuel (interrupts_now.foldl (fun acc e =>
          let acc1 := handle_disk_interrupt acc e.2
          { acc1 with pending_disk_operations := acc1.pending_disk_operations.erase e }) s)

def process_pending_interrupts (s : Sys) : Sys :=
  ppiAux (s.pending_disk_operations.length + 1) s

/-- The scan of `_advance_time_with_interrupts` that picks the earliest
pending completion falling inside the remaining interval (first minimal
one, matching the strict `<` comparison of the source). -/
def findNextIntr (now remaining : ℚ) (l : List (ℚ × DiskRequest)) :
    Option (ℚ × DiskRequest) :=
  l.foldl (fun acc e =>
    if 0 < e.1 - now ∧ e.1 - now ≤ remaining + TOL then
      match acc with
      | none => some e
      | some b => if e.1 < b.1 then some e else acc
    else acc) none

/-- The `while remaining_time > 0.0001` loop of
`System._advance_time_with_interrupts`, fuelled. -/
def atwiAux : Nat → Sys → Nat → ℚ → ℚ → Sys × ℚ × Bool
  | 0, s, _, time_used, _ => (s, time_used, false)
  | fuel+1, s, pid, time_used, remaining =>
    if remaining ≤ TOL then (s, time_used, false)
    else
      match findNextIntr s.current_time remaining s.pending_disk_operations with
      | some (it, ir) =>
        let seg := rmin (rmin (it - s.current_time) (quantumOf s pid)) remaining
        let s1 := { s with current_time := s.current_time + seg
                           procs := updProc s.procs pid
                             (fun p => { p with remaining_quantum := p.remaining_quantum - seg }) }
        let time_used := time_used + seg
        let remaining := remaining - seg
        if rabs (s1.current_time - it) < TOL then
          let s2 := handle_disk_interrupt s1 ir
          let s2 := { s2 with pending_disk_operations :=
                        s2.pending_disk_operations.erase (it, ir) }
          if s2.current_process ≠ some pid then (s2, time_used, true)
          else if quantumOf s2 pid ≤ TOL then (s2, time_used, true)
          else atwiAux fuel s2 pid time_used remaining
        else
          if quantumOf s1 pid ≤ TOL then (s1, time_used, true)
          else atwiAux fuel s1 pid time_used remaining
      | none =>
        let seg := rmin remaining (quantumOf s pid)
        let s1 := { s with current_time := s.current_time + seg
                           procs := updProc s.procs pid
                             (fun p => { p with remaining_quantum := p.remaining_quantum - seg }) }
        let time_used := time_used + seg
        let remaining := remaining - seg
        if quantumOf s1 pid ≤ TOL then (s1, time_used, true)
        else atwiAux fuel s1 pid time_used remaining

/-- `System._advance_time_with_interrupts`; returns
`(state, time_used, was_interrupted)`. -/
def advance_time_with_interrupts (s : Sys) (duration : ℚ) : Sys × ℚ × Bool :=
  match s.current_process with
  | none => ({ s with current_time := s.current_time + duration }, duration, false)
  | some pid => atwiAux (s.pending_disk_operations.length + 3) s pid 0 duration

/-- `System._execute_process`.  Note that the program cursor is advanced
by `get_next_sector_operation` before the syscall charge. -/
def execute_process (s : Sys) : Sys :=
  match s.current_process with
  | none => s
  | some pid =>
    match lookupProc s.procs pid with
    | none => s
    | some p =>
      if hw : p.current_index < p.program.length then
        let step := p.program.get ⟨p.current_index, hw⟩
        let sector := step.1
        let is_write := step.2
        let sA := { s with procs := updProc s.procs pid
                             (fun q => { q with current_index := q.current_index + 1 })
                           trace := s.trace ++ [TraceEvt.syscallOp pid sector is_write] }
        let syscall_time := if is_write then SYSCALL_WRITE_TIME else SYSCALL_READ_TIME
        let adv := advance_time_with_interrupts sA syscall_time
        let s1 := { adv.1 with
                      procs := updProc adv.1.procs pid
                        (fun q => { q with total_cpu_time := q.total_cpu_time + adv.2.1 })
                      total_syscall_time := adv.1.total_syscall_time + adv.2.1 }
        if s1.current_process ≠ some pid then s1
        else if adv.2.2 = true ∨ quantumOf s1 pid ≤ TOL then
          { s1 with procs := updProc s1.procs pid
                      (fun q => { q with state := .ready, ready_since := some s1.current_time })
                    ready_queue := s1.ready_queue ++ [pid]
                    current_process := none }
        else
          match access_buffer s1.cache sector is_write with
          | none => { s1 with crashed := true }
          | some (i, is_hit, need_disk_read, cache') =>
            let s2 := { s1 with cache := cache'
                                trace := s1.trace ++
                                  [if is_hit then TraceEvt.cacheHit i sector
                                   else TraceEvt.cacheMiss sector i] }
            if need_disk_read = true ∨ (is_write = true ∧ is_hit = false) then
              let rc := s2.request_counter + 1
              let r := mkDiskRequest rc sector is_write (pid : Int) s2.current_time
              { s2 with sched := addRequest s2.sched r
                        request_counter := rc
                        trace := s2.trace ++ [TraceEvt.reqScheduled rc sector is_write]
                        procs := updProc s2.procs pid
                          (fun q => { q with state := .blocked, waiting_for_io := true
                                             io_request := some rc })
                        blocked_processes := s2.blocked_processes ++ [(pid, rc, s2.current_time)]
                        current_process := none }
            else
              let process_time := if is_write then PROCESS_WRITE_TIME else PROCESS_READ_TIME
              let adv2 := advance_time_with_interrupts s2 process_time
              let s3 := { adv2.1 with
                            procs := updProc adv2.1.procs pid
                              (fun q => { q with total_cpu_time := q.total_cpu_time + adv2.2.1 })
                            total_process_time := adv2.1.total_process_time + adv2.2.1 }
              if s3.current_process ≠ some pid then s3
              else if adv2.2.2 = true ∨ quantumOf s3 pid ≤ TOL then
                { s3 with procs := updProc s3.procs pid
                            (fun q => { q with state := .ready, ready_since := some s3.current_time })
                          ready_queue := s3.ready_queue ++ [pid]
                          current_process := none }
              else s3
      else
        { s with procs := updProc s.procs pid
                   (fun q => { q with state := .finished, finish_time := some s.current_time })
                 completed_processes := s.completed_processes + 1
                 current_process := none }

/-- `System._process_disk_queue`: start service of the next request only
when no completion is pending; head position and running totals are
updated immediately and the completion is pushed onto the pending set. -/
def process_disk_queue (s : Sys) : Sys :=
  if !s.pending_disk_operations.isEmpty then s
  else if !hasRequests s.sched then s
  else
    match getNextRequest s.sched s.disk.current_track with
    | (none, sch') => { s with sched := sch' }
    | (some r, sch') =>
      let seek_time := calculate_seek_time s.disk r.track
      let total_disk_time := seek_time + ROTATION_LATENCY + SECTOR_RW_TIME
      let disk' := { s.disk with
                       total_seek_time := s.disk.total_seek_time + seek_time
                       total_rotational_latency := s.disk.total_rotational_latency + ROTATION_LATENCY
                       total_transfer_time := s.disk.total_transfer_time + SECTOR_RW_TIME
                       current_track := r.track
                       completed_requests := s.disk.completed_requests + 1 }
      { s with sched := sch'
               disk := disk'
               pending_disk_operations :=
                 s.pending_disk_operations ++ [(s.current_time + total_disk_time, r)]
               trace := s.trace ++ [TraceEvt.diskStart r.request_id r.track] }

/-- The dispatch step of the main loop (pop the ready-queue head, mark it
running, reset its quantum and charge its wait time). -/
def dispatch (s : Sys) : Sys :=
  match s.ready_queue with
  | [] => s
  | pid :: rest =>
    let s := { s with ready_queue := rest
                      current_process := some pid
                      procs := updProc s.procs pid
                        (fun p => { p with state := .running, remaining_quantum := TIME_QUANTUM }) }
    match lookupProc s.procs pid with
    | some p =>
      match p.ready_since with
      | some rs =>
        { s with procs := updProc s.procs pid
                   (fun q => { q with total_wait_time := q.total_wait_time + (s.current_time - rs)
                                      ready_since := none }) }
      | none => s
    | none => s

def minPendingTime : List (ℚ × DiskRequest) → Option ℚ
  | [] => none
  | e :: es => some (es.foldl (fun m x => rmin m x.1) e.1)

/-- The idle-advance step of the main loop. -/
def idleAdvance (s : Sys) : Sys :=
  if !s.pending_disk_operations.isEmpty then
    match minPendingTime s.pending_disk_operations with
    | some nt => if s.current_time < nt then { s with current_time := nt } else s
    | none => s
  else if hasRequests s.sched then process_disk_queue s
  else { s with current_time := s.current_time + 1 }

/-- One iteration of the `while` loop of `System.run_simulation`. -/
def simIteration (s : Sys) : Sys :=
  let s := process_pending_interrupts s
  let s := if s.current_process.isNone && !s.ready_queue.isEmpty then dispatch s else s
  let s := if s.current_process.isSome then execute_process s else s
  let s := if hasRequests s.sched && s.pending_disk_operations.isEmpty
           then process_disk_queue s else s
  if s.current_process.isNone && s.ready_queue.isEmpty && !s.blocked_processes.isEmpty
  then idleAdvance s else s

def hasActiveProcesses (s : Sys) : Bool :=
  s.procs.any (fun p => p.state != PState.finished)

/-- The main loop, fuelled by the source's `max_iterations` cap. -/
def runSimLoop : Nat → Sys → Sys
  | 0, s => s
  | n+1, s =>
    if hasActiveProcesses s && !s.crashed then runSimLoop n (simIteration s) else s

/-- The `while self.scheduler.has_requests()` loop of
`System._flush_cache_if_needed`. -/
def flushLoop : Nat → Sys → Sys
  | 0, s => s
  | n+1, s =>
    if hasRequests s.sched then
      let s := process_disk_queue s
      let s :=
        if !s.pending_disk_operations.isEmpty then
          match minPendingTime s.pending_disk_operations with
          | some nt => process_pending_interrupts { s with current_time := nt }
          | none => s
        else s
      flushLoop n s
    else s

/-- `System._flush_cache_if_needed`: mint a synthetic write request
(`process_id = -1`) per dirty buffer, drive the disk to completion, then
detach the flushed buffers. -/
def flush_cache_if_needed (s : Sys) : Sys :=
  let dirty := get_dirty_buffers s.cache
  if dirty.isEmpty then s
  else
    let s := dirty.foldl (fun acc i =>
      match (acc.cache.store i).sector with
      | some sec =>
        let rc := acc.request_counter + 1
        let r := mkDiskRequest rc sec true (-1) acc.current_time
        { acc with sched := addRequest acc.sched r
                   request_counter := rc
                   trace := acc.trace ++ [TraceEvt.flushWrite i sec] }
      | none => { acc with crashed := true }) s
    let s := flushLoop (schedQueueSize s.sched + 1) s
    dirty.foldl (fun acc i => { acc with cache := remove_buffer_from_cache acc.cache i }) s

def MAX_ITERATIONS : Nat := 1000000

/-- `System.run_simulation` (without the print-only statistics pass). -/
def run_simulation (s : Sys) : Sys :=
  flush_cache_if_needed (runSimLoop MAX_ITERATIONS s)

/-- `System.add_process`. -/
def add_process (s : Sys) (p : Process) : Sys :=
  let p' := { p with state := PState.ready
                     ready_since := some s.current_time
                     start_time := match p.start_time with
                                   | none => some s.current_time
                                   | some t => some t }
  { s with procs := s.procs ++ [p'], ready_queue := s.ready_queue ++ [p'.pid] }

/-- `System.__init__` followed by `add_process` for each workload
process.  `request_counter` is the process-wide `System._request_counter`
class attribute, which a fresh `System` does NOT reset. -/
def initSystem (policy : Policy) (request_counter : Nat) (ps : List Process) : Sys :=
  let s0 : Sys :=
    { current_time := 0
      disk := initHardDisk
      cache := initCache BUFFER_COUNT LFU_LEFT_SEGMENT_MAX LFU_MIDDLE_SEGMENT_MAX
      sched := create_scheduler policy
      procs := []
      ready_queue := []
      current_process := none
      blocked_processes := []
      total_syscall_time := 0
      total_interrupt_time := 0
      total_process_time := 0
      completed_processes := 0
      pending_disk_operations := []
      request_counter := request_counter
      crashed := false
      trace := [] }
  ps.foldl add_process s0

/-! Statistics record mirroring `_print_final_statistics`. -/

structure ProcStats where
  pid : Nat
  total_time : ℚ
  cpu_time : ℚ
  io_time : ℚ
  wait_time : ℚ
  progress : ℚ
deriving DecidableEq, Repr

structure Stats where
  completed_requests : Nat
  avg_seek_time : ℚ
  avg_rotational_latency : ℚ
  avg_transfer_time : ℚ
  total_disk_time : ℚ
  hits : Nat
  misses : Nat
  hit_rate : ℚ
  total_time : ℚ
  total_syscall_time : ℚ
  total_interrupt_time : ℚ
  total_process_time : ℚ
  per_process : List ProcStats
deriving DecidableEq, Repr

def getStats (s : Sys) : Stats :=
  let cr := s.disk.completed_requests
  { completed_requests := cr
    avg_seek_time := if cr = 0 then 0 else s.disk.total_seek_time / (cr : ℚ)
    avg_rotational_latency := if cr = 0 then 0 else s.disk.total_rotational_latency / (cr : ℚ)
    avg_transfer_time := if cr = 0 then 0 else s.disk.total_transfer_time / (cr : ℚ)
    total_disk_time :=
      if cr = 0 then 0
      else s.disk.total_seek_time + s.disk.total_rotational_latency + s.disk.total_transfer_time
    hits := s.cache.hits
    misses := s.cache.misses
    hit_rate :=
      if s.cache.hits + s.cache.misses = 0 then 0
      else (s.cache.hits : ℚ) / ((s.cache.hits : ℚ) + (s.cache.misses : ℚ))
    total_time := s.current_time
    total_syscall_time := s.total_syscall_time
    total_interrupt_time := s.total_interrupt_time
    total_process_time := s.total_process_time
    per_process := s.procs.filterMap (fun p =>
      match p.start_time, p.finish_time with
      | some st, some ft =>
        if ft - st ≤ 0 then none
        else some { pid := p.pid, total_time := ft - st, cpu_time := p.total_cpu_time
                    io_time := p.total_io_time, wait_time := p.total_wait_time
                    progress := get_progress p }
      | _, _ => none) }

/-! ## Claim C4 : at most one pending disk completion -/

theorem handle_disk_interrupt_pending (s : Sys) (r : DiskRequest) :
    (handle_disk_interrupt s r).pending_disk_operations = s.pending_disk_operations := by
  rw [handle_disk_interrupt]
  repeat' split
  all_goals rfl

theorem ppiFold_pending_le (l : List (ℚ × DiskRequest)) (s : Sys) :
    ((l.foldl (fun acc e =>
        let acc1 := handle_disk_interrupt acc e.2
        { acc1 with pending_disk_operations := acc1.pending_disk_operations.erase e })
      s).pending_disk_operations).length ≤ s.pending_disk_operations.length := by
  induction l generalizing s with
  | nil => exact le_refl _
  | cons e es ih =>
    rw [List.foldl_cons]
    refine le_trans (ih _) ?_
    show (((handle_disk_interrupt s e.2).pending_disk_operations).erase e).length ≤ _
    refine le_trans (List.Sublist.length_le (List.erase_sublist _ _)) ?_
    rw [handle_disk_interrupt_pending]

theorem ppiAux_pending_le (fuel : Nat) (s : Sys) :
    ((ppiAux fuel s).pending_disk_operations).length ≤
      s.pending_disk_operations.length := by
  induction fuel generalizing s with
  | zero => exact le_refl _
  | succ fuel ih =>
    rw [ppiAux]
    dsimp only
    split
    · exact le_refl _
    · split
      · exact le_refl _
      · exact le_trans (ih _) (ppiFold_pending_le _ _)

theorem process_pending_interrupts_pending_le (s : Sys) :
    ((process_pending_interrupts s).pending_disk_operations).length ≤
      s.pending_disk_operations.length :=
  ppiAux_pending_le _ s

theorem atwiAux_pending_le (fuel : Nat) (s : Sys) (pid : Nat) (tu rem : ℚ) :
    ((atwiAux fuel s pid tu rem).1.pending_disk_operations).length ≤
      s.pending_disk_operations.length := by
  induction fuel generalizing s tu rem with
  | zero => exact le_refl _
  | succ fuel ih =>
    rw [atwiAux]
    dsimp only
    split
    · exact le_refl _
    · split
      · -- an upcoming interrupt exists inside the window
        split
        · -- the interrupt fired: handle and remove it
          split
          · refine le_trans (List.Sublist.length_le (List.erase_sublist _ _)) ?_
            rw [handle_disk_interrupt_pending]
          · split
            · refine le_trans (List.Sublist.length_le (List.erase_sublist _ _)) ?_
              rw [handle_disk_interrupt_pending]
            · refine le_trans (ih _ _ _) ?_
              refine le_trans (List.Sublist.length_le (List.erase_sublist _ _)) ?_
              rw [handle_disk_interrupt_pending]
        · split
          · exact le_refl _
          · exact ih _ _ _
      · split
        · exact le_refl _
        · exact ih _ _ _

theorem advance_pending_le (s : Sys) (d : ℚ) :
    ((advance_time_with_interrupts s d).1.pending_disk_operations).length ≤
      s.pending_disk_operations.length := by
  rw [advance_time_with_interrupts]
  split
  · exact le_refl _
  · exact atwiAux_pending_le _ _ _ _ _

theorem execute_process_pending_le (s : Sys) :
    ((execute_process s).pending_disk_operations).length ≤
      s.pending_disk_operations.length := by
  rw [execute_process]
  split
  · exact le_refl _
  · split
    · exact le_refl _
    · next p hp =>
      by_cases hw : p.current_index < p.program.length
      · rw [dif_pos hw]
        dsimp only
        generalize hA : advance_time_with_interrupts _ _ = adv
        have h1 : (adv.1.pending_disk_operations).length ≤
            s.pending_disk_operations.length := by
          rw [← hA]; exact advance_pending_le _ _
        repeat' split
        all_goals first
          | exact h1
          | exact le_trans (advance_pending_le _ _) h1
      · rw [dif_neg hw]

theorem process_disk_queue_pending_le_one (s : Sys)
    (h : s.pending_disk_operations.length ≤ 1) :
    ((process_disk_queue s).pending_disk_operations).length ≤ 1 := by
  rw [process_disk_queue]
  split
  · exact h
  next hne =>
    split
    · exact h
    · have hnil : s.pending_disk_operations = [] := by
        cases hxx : s.pending_disk_operations with
        | nil => rfl
        | cons a as => rw [hxx] at hne; simp at hne
      split
      · exact h
      · simp [hnil]

theorem dispatch_pending (s : Sys) :
    (dispatch s).pending_disk_operations = s.pending_disk_operations := by
  rw [dispatch]
  dsimp only
  repeat' split
  all_goals rfl

theorem idleAdvance_pending_le_one (s : Sys)
    (h : s.pending_disk_operations.length ≤ 1) :
    ((idleAdvance s).pending_disk_operations).length ≤ 1 := by
  rw [idleAdvance]
  split
  · split
    · split
      · exact h
      · exact h
    · exact h
  · split
    · exact process_disk_queue_pending_le_one s h
    · exact h

theorem simIteration_pending_le_one (s : Sys)
    (h : s.pending_disk_operations.length ≤ 1) :
    ((simIteration s).pending_disk_operations).length ≤ 1 := by
  rw [simIteration]
  have h1 : ((process_pending_interrupts s).pending_disk_operations).length ≤ 1 :=
    le_trans (process_pending_interrupts_pending_le s) h
  set s1 := process_pending_interrupts s with hs1
  by_cases hd : s1.current_process.isNone && !s1.ready_queue.isEmpty
  all_goals simp only [hd, if_pos, if_neg, Bool.false_eq_true, not_false_iff]
  · -- dispatched
    have h2 : ((dispatch s1).pending_disk_operations).length ≤ 1 := by
      rw [dispatch_pending]; exact h1
    set s2 := dispatch s1 with hs2
    by_cases he : s2.current_process.isSome
    all_goals simp only [he, if_pos, if_neg, Bool.false_eq_true, not_false_iff]
    · have h3 := le_trans (execute_process_pending_le s2) h2
      set s3 := execute_process s2 with hs3
      by_cases hq : hasRequests s3.sched && s3.pending_disk_operations.isEmpty
      all_goals simp only [hq, if_pos, if_neg, Bool.false_eq_true, not_false_iff]
      · have h4 := process_disk_queue_pending_le_one s3 h3
        split
        · exact idleAdvance_pending_le_one _ h4
        · exact h4
      · split
        · exact idleAdvance_pending_le_one _ h3
        · exact h3
    · by_cases hq : hasRequests s2.sched && s2.pending_disk_operations.isEmpty
      all_goals simp only [hq, if_pos, if_neg, Bool.false_eq_true, not_false_iff]
      · have h4 := process_disk_queue_pending_le_one s2 h2
        split
        · exact idleAdvance_pending_le_one _ h4
        · exact h4
      · split
        · exact idleAdvance_pending_le_one _ h2
        · exact h2
  · by_cases he : s1.current_process.isSome
    all_goals simp only [he, if_pos, if_neg, Bool.false_eq_true, not_false_iff]
    · have h3 := le_trans (execute_process_pending_le s1) h1
      set s3 := execute_process s1 with hs3
      by_cases hq : hasRequests s3.sched && s3.pending_disk_operations.isEmpty
      all_goals simp only [hq, if_pos, if_neg, Bool.false_eq_true, not_false_iff]
      · have h4 := process_disk_queue_pending_le_one s3 h3
        split
        · exact idleAdvance_pending_le_one _ h4
        · exact h4
      · split
        · exact idleAdvance_pending_le_one _ h3
        · exact h3
    · by_cases hq : hasRequests s1.sched && s1.pending_disk_operations.isEmpty
      all_goals simp only [hq, if_pos, if_neg, Bool.false_eq_true, not_false_iff]
      · have h4 := process_disk_queue_pending_le_one s1 h1
        split
        · exact idleAdvance_pending_le_one _ h4
        · exact h4
      · split
        · exact idleAdvance_pending_le_one _ h1
        · exact h1

theorem foldl_add_process_pending (ps : List Process) (s : Sys) :
    ((ps.foldl add_process s).pending_disk_operations) = s.pending_disk_operations := by
  induction ps generalizing s with
  | nil => rfl
  | cons p ps ih =>
    rw [List.foldl_cons, ih]
    rfl

/-- C4: from any initial system, after any number of main-loop
iterations, at most one disk completion is pending: the kernel never
starts service of a new request while one is outstanding. -/
theorem single_disk_invariant (policy : Policy) (rc : Nat) (ps : List Process) (n : Nat) :
    ((runSimLoop n (initSystem policy rc ps)).pending_disk_operations).length ≤ 1 := by
  have key : ∀ (m : Nat) (s : Sys), s.pending_disk_operations.length ≤ 1 →
      ((runSimLoop m s).pending_disk_operations).length ≤ 1 := by
    intro m
    induction m with
    | zero => intro s h; exact h
    | succ m ih =>
      intro s h
      rw [runSimLoop]
      split
      · exact ih _ (simIteration_pending_le_one s h)
      · exact h
  apply key
  rw [initSystem]
  rw [foldl_add_process_pending]
  simp

/-! ## Claim C1 : the LOOK policy's selection and anti-starvation rules -/

/-- What the LOOK candidate selection is claimed to do, phrased over the
(unsorted) queue: forward direction picks the smallest track `≥ ct`,
falling back (with a direction flip) to the smallest track overall;
backward symmetrically. -/
def lookSelectionSpec (ct : Nat) (s : LOOKState) (cand : DiskRequest) (dir : Bool) : Prop :=
  (s.direction_forward = true →
     ((∃ r ∈ s.queue, ct ≤ r.track) →
        cand ∈ s.queue ∧ ct ≤ cand.track ∧
          (∀ r ∈ s.queue, ct ≤ r.track → cand.track ≤ r.track) ∧ dir = true)
   ∧ ((∀ r ∈ s.queue, r.track < ct) →
        cand ∈ s.queue ∧ (∀ r ∈ s.queue, cand.track ≤ r.track) ∧ dir = false))
  ∧ (s.direction_forward = false →
     ((∃ r ∈ s.queue, r.track ≤ ct) →
        cand ∈ s.queue ∧ cand.track ≤ ct ∧
          (∀ r ∈ s.queue, r.track ≤ ct → r.track ≤ cand.track) ∧ dir = false)
   ∧ ((∀ r ∈ s.queue, ct < r.track) →
        cand ∈ s.queue ∧ (∀ r ∈ s.queue, r.track ≤ cand.track) ∧ dir = true))

theorem chooseCandidate_fwd_some (ct : Nat) (h : DiskRequest) (t : List DiskRequest)
    (hex : ∃ r ∈ h :: t, ct ≤ r.track) :
    (chooseCandidate ct true h t).1 ∈ h :: t ∧
    ct ≤ (chooseCandidate ct true h t).1.track ∧
    (∀ r ∈ h :: t, ct ≤ r.track → (chooseCandidate ct true h t).1.track ≤ r.track) ∧
    (chooseCandidate ct true h t).2 = true := by
  obtain ⟨r0, hr0, hr0t⟩ := hex
  have hr0f : r0 ∈ (h :: t).filter (fun r => decide (ct ≤ r.track)) :=
    List.mem_filter.mpr ⟨hr0, by simpa using hr0t⟩
  rcases hf : (h :: t).filter (fun r => decide (ct ≤ r.track)) with _ | ⟨fh, ft⟩
  · rw [hf] at hr0f
    exact absurd hr0f (List.not_mem_nil r0)
  · have hcc : chooseCandidate ct true h t = (selMin fh ft, true) := by
      rw [chooseCandidate, if_pos rfl, hf]
    have hmem : selMin fh ft ∈ (h :: t).filter (fun r => decide (ct ≤ r.track)) := by
      rw [hf]; exact selMin_mem fh ft
    have hmem' := List.mem_filter.mp hmem
    refine ⟨by rw [hcc]; exact hmem'.1, by rw [hcc]; simpa using hmem'.2, ?_, by rw [hcc]⟩
    intro r hr hrt
    have hrf : r ∈ (h :: t).filter (fun r => decide (ct ≤ r.track)) :=
      List.mem_filter.mpr ⟨hr, by simpa using hrt⟩
    rw [hf] at hrf
    rw [hcc]
    exact selMin_le fh ft r hrf

theorem chooseCandidate_fwd_none (ct : Nat) (h : DiskRequest) (t : List DiskRequest)
    (hall : ∀ r ∈ h :: t, r.track < ct) :
    (chooseCandidate ct true h t).1 ∈ h :: t ∧
    (∀ r ∈ h :: t, (chooseCandidate ct true h t).1.track ≤ r.track) ∧
    (chooseCandidate ct true h t).2 = false := by
  rcases hf : (h :: t).filter (fun r => decide (ct ≤ r.track)) with _ | ⟨fh, ft⟩
  · have hcc : chooseCandidate ct true h t = (selMin h t, false) := by
      rw [chooseCandidate, if_pos rfl, hf]
    exact ⟨by rw [hcc]; exact selMin_mem h t,
           by rw [hcc]; exact selMin_le h t, by rw [hcc]⟩
  · have hfh : fh ∈ (h :: t).filter (fun r => decide (ct ≤ r.track)) := by
      rw [hf]; simp
    have hm := List.mem_filter.mp hfh
    have : ct ≤ fh.track := by simpa using hm.2
    exact absurd this (not_le_of_lt (hall fh hm.1))

theorem chooseCandidate_bwd_some (ct : Nat) (h : DiskRequest) (t : List DiskRequest)
    (hex : ∃ r ∈ h :: t, r.track ≤ ct) :
    (chooseCandidate ct false h t).1 ∈ h :: t ∧
    (chooseCandidate ct false h t).1.track ≤ ct ∧
    (∀ r ∈ h :: t, r.track ≤ ct → r.track ≤ (chooseCandidate ct false h t).1.track) ∧
    (chooseCandidate ct false h t).2 = false := by
  obtain ⟨r0, hr0, hr0t⟩ := hex
  have hr0f : r0 ∈ (h :: t).filter (fun r => decide (r.track ≤ ct)) :=
    List.mem_filter.mpr ⟨hr0, by simpa using hr0t⟩
  rcases hf : (h :: t).filter (fun r => decide (r.track ≤ ct)) with _ | ⟨fh, ft⟩
  · rw [hf] at hr0f
    exact absurd hr0f (List.not_mem_nil r0)
  · have hcc : chooseCandidate ct false h t = (selMax fh ft, false) := by
      rw [chooseCandidate, if_neg (by simp), hf]
    have hmem : selMax fh ft ∈ (h :: t).filter (fun r => decide (r.track ≤ ct)) := by
      rw [hf]; exact selMax_mem fh ft
    have hmem' := List.mem_filter.mp hmem
    refine ⟨by rw [hcc]; exact hmem'.1, by rw [hcc]; simpa using hmem'.2, ?_, by rw [hcc]⟩
    intro r hr hrt
    have hrf : r ∈ (h :: t).filter (fun r => decide (r.track ≤ ct)) :=
      List.mem_filter.mpr ⟨hr, by simpa using hrt⟩
    rw [hf] at hrf
    rw [hcc]
    exact selMax_ge fh ft r hrf

theorem chooseCandidate_bwd_none (ct : Nat) (h : DiskRequest) (t : List DiskRequest)
    (hall : ∀ r ∈ h :: t, ct < r.track) :
    (chooseCandidate ct false h t).1 ∈ h :: t ∧
    (∀ r ∈ h :: t, r.track ≤ (chooseCandidate ct false h t).1.track) ∧
    (chooseCandidate ct false h t).2 = true := by
  rcases hf : (h :: t).filter (fun r => decide (r.track ≤ ct)) with _ | ⟨fh, ft⟩
  · have hcc : chooseCandidate ct false h t = (selMax h t, true) := by
      rw [chooseCandidate, if_neg (by simp), hf]
    exact ⟨by rw [hcc]; exact selMax_mem h t,
           by rw [hcc]; exact selMax_ge h t, by rw [hcc]⟩
  · have hfh : fh ∈ (h :: t).filter (fun r => decide (r.track ≤ ct)) := by
      rw [hf]; simp
    have hm := List.mem_filter.mp hfh
    have : fh.track ≤ ct := by simpa using hm.2
    exact absurd this (not_le_of_lt (hall fh hm.1))

theorem lookGetNextF_succ (ct n : Nat) (s : LOOKState) (h : DiskRequest)
    (t : List DiskRequest) (hs : sortByTrack s.queue = h :: t) :
    lookGetNextF ct (n + 1) s =
      (if s.last_track = some (chooseCandidate ct s.direction_forward h t).1.track then
         if LOOK_MAX_SAME_TRACK ≤ s.same_track_count + 1 then
           lookGetNextF ct n
             { queue := (h :: t).erase (chooseCandidate ct s.direction_forward h t).1
               direction_forward := (chooseCandidate ct s.direction_forward h t).2
               same_track_count := 0
               last_track := s.last_track }
         else
           (some (chooseCandidate ct s.direction_forward h t).1,
             { queue := (h :: t).erase (chooseCandidate ct s.direction_forward h t).1
               direction_forward := (chooseCandidate ct s.direction_forward h t).2
               same_track_count := s.same_track_count + 1
               last_track := s.last_track })
       else
         (some (chooseCandidate ct s.direction_forward h t).1,
           { queue := (h :: t).erase (chooseCandidate ct s.direction_forward h t).1
             direction_forward := (chooseCandidate ct s.direction_forward h t).2
             same_track_count := 1
             last_track := some (chooseCandidate ct s.direction_forward h t).1.track })) := by
  rw [lookGetNextF, hs]

/-- One unfolding of `lookGetNext` on a non-empty queue whose sorted form
is `h :: t`, with the recursive anti-starvation call folded back into
`lookGetNext`. -/
theorem lookGetNext_unfold (ct : Nat) (s : LOOKState) (h : DiskRequest)
    (t : List DiskRequest) (hs : sortByTrack s.queue = h :: t) :
    lookGetNext ct s =
      (if s.last_track = some (chooseCandidate ct s.direction_forward h t).1.track then
         if LOOK_MAX_SAME_TRACK ≤ s.same_track_count + 1 then
           lookGetNext ct
             { queue := (h :: t).erase (chooseCandidate ct s.direction_forward h t).1
               direction_forward := (chooseCandidate ct s.direction_forward h t).2
               same_track_count := 0
               last_track := s.last_track }
         else
           (some (chooseCandidate ct s.direction_forward h t).1,
             { queue := (h :: t).erase (chooseCandidate ct s.direction_forward h t).1
               direction_forward := (chooseCandidate ct s.direction_forward h t).2
               same_track_count := s.same_track_count + 1
               last_track := s.last_track })
       else
         (some (chooseCandidate ct s.direction_forward h t).1,
           { queue := (h :: t).erase (chooseCandidate ct s.direction_forward h t).1
             direction_forward := (chooseCandidate ct s.direction_forward h t).2
             same_track_count := 1
             last_track := some (chooseCandidate ct s.direction_forward h t).1.track })) := by
  have hlen : s.queue.length = t.length + 1 := by
    have hl := sortByTrack_length s.queue
    rw [hs] at hl
    simpa using hl.symm
  have herase : ((h :: t).erase (chooseCandidate ct s.direction_forward h t).1).length
      = t.length := by
    have := List.length_erase_of_mem (chooseCandidate_mem ct s.direction_forward h t)
    simpa using this
  have hfold :
      lookGetNext ct
        { queue := (h :: t).erase (chooseCandidate ct s.direction_forward h t).1
          direction_forward := (chooseCandidate ct s.direction_forward h t).2
          same_track_count := 0
          last_track := s.last_track } =
      lookGetNextF ct t.length
        { queue := (h :: t).erase (chooseCandidate ct s.direction_forward h t).1
          direction_forward := (chooseCandidate ct s.direction_forward h t).2
          same_track_count := 0
          last_track := s.last_track } := by
    rw [lookGetNext]
    congr 1
  rw [hfold, lookGetNext, hlen, lookGetNextF_succ ct t.length s h t hs]

/-- C1: with a non-empty queue, `LOOKScheduler.get_next_request` selects
a candidate per the direction rule of `lookSelectionSpec` (forward:
smallest track `≥ current_track`, else smallest overall with the
direction flag reversed; backward symmetric), and: if the candidate's
track equals the last served track for the `LOOK_MAX_SAME_TRACK`-th
consecutive time, the candidate is removed from the queue without being
returned and selection recurses on the remaining queue; otherwise the
candidate is removed and returned. -/
theorem look_get_next_request_spec (ct : Nat) (s : LOOKState) (hne : s.queue ≠ []) :
    ∃ cand dir,
      lookSelectionSpec ct s cand dir ∧
      ((s.last_track = some cand.track ∧ LOOK_MAX_SAME_TRACK ≤ s.same_track_count + 1) →
         lookGetNext ct s =
           lookGetNext ct
             { queue := (sortByTrack s.queue).erase cand
               direction_forward := dir
               same_track_count := 0
               last_track := s.last_track }) ∧
      (¬ (s.last_track = some cand.track ∧ LOOK_MAX_SAME_TRACK ≤ s.same_track_count + 1) →
         lookGetNext ct s =
           (some cand,
             { queue := (sortByTrack s.queue).erase cand
               direction_forward := dir
               same_track_count :=
                 if s.last_track = some cand.track then s.same_track_count + 1 else 1
               last_track :=
                 if s.last_track = some cand.track then s.last_track
                 else some cand.track })) := by
  rcases hs : sortByTrack s.queue with _ | ⟨h, t⟩
  · have hl := sortByTrack_length s.queue
    rw [hs] at hl
    exact absurd (List.eq_nil_of_length_eq_zero hl.symm) hne
  have hlen : s.queue.length = t.length + 1 := by
    have hl := sortByTrack_length s.queue
    rw [hs] at hl
    simpa using hl.symm
  refine ⟨(chooseCandidate ct s.direction_forward h t).1,
          (chooseCandidate ct s.direction_forward h t).2, ?_, ?_, ?_⟩
  · -- selection specification, transported along the sort permutation
    have hmq : ∀ r : DiskRequest, r ∈ h :: t ↔ r ∈ s.queue := by
      intro r
      rw [← hs]
      exact mem_sortByTrack
    constructor
    · intro hfwd
      constructor
      · intro hex
        have hex' : ∃ r ∈ h :: t, ct ≤ r.track := by
          obtain ⟨r, hr, hrt⟩ := hex
          exact ⟨r, (hmq r).mpr hr, hrt⟩
        have := chooseCandidate_fwd_some ct h t hex'
        rw [hfwd]
        exact ⟨(hmq _).mp this.1, this.2.1,
               fun r hr hrt => this.2.2.1 r ((hmq r).mpr hr) hrt, this.2.2.2⟩
      · intro hall
        have hall' : ∀ r ∈ h :: t, r.track < ct := fun r hr => hall r ((hmq r).mp hr)
        have := chooseCandidate_fwd_none ct h t hall'
        rw [hfwd]
        exact ⟨(hmq _).mp this.1, fun r hr => this.2.1 r ((hmq r).mpr hr), this.2.2⟩
    · intro hbwd
      constructor
      · intro hex
        have hex' : ∃ r ∈ h :: t, r.track ≤ ct := by
          obtain ⟨r, hr, hrt⟩ := hex
          exact ⟨r, (hmq r).mpr hr, hrt⟩
        have := chooseCandidate_bwd_some ct h t hex'
        rw [hbwd]
        exact ⟨(hmq _).mp this.1, this.2.1,
               fun r hr hrt => this.2.2.1 r ((hmq r).mpr hr) hrt, this.2.2.2⟩
      · intro hall
        have hall' : ∀ r ∈ h :: t, ct < r.track := fun r hr => hall r ((hmq r).mp hr)
        have := chooseCandidate_bwd_none ct h t hall'
        rw [hbwd]
        exact ⟨(hmq _).mp this.1, fun r hr => this.2.1 r ((hmq r).mpr hr), this.2.2⟩
  · -- anti-starvation drop: selection recurses on the shortened queue
    intro hdrop
    rw [lookGetNext_unfold ct s h t hs]
    simp only [if_pos hdrop.1, if_pos hdrop.2]
  · -- ordinary selection: the candidate is removed and returned
    intro hnodrop
    rw [lookGetNext_unfold ct s h t hs]
    by_cases hlast : s.last_track = some (chooseCandidate ct s.direction_forward h t).1.track
    · have hcnt : ¬ LOOK_MAX_SAME_TRACK ≤ s.same_track_count + 1 := by
        intro hc
        exact hnodrop ⟨hlast, hc⟩
      simp only [if_pos hlast, if_neg hcnt]
    · simp only [if_neg hlast]

/-- A concrete LOOK state used by the C1 witness. -/
def c1_state : LOOKState :=
  { queue := [mkDiskRequest 1 700 false 1 0, mkDiskRequest 2 2600 false 2 0]
    direction_forward := true
    same_track_count := 0
    last_track := none }

/-- Witness for C1: the specification applies to a concrete two-request
LOOK state. -/
theorem look_get_next_request_spec_witness :
    ∃ cand dir,
      lookSelectionSpec 3 c1_state cand dir ∧
      ((c1_state.last_track = some cand.track ∧
          LOOK_MAX_SAME_TRACK ≤ c1_state.same_track_count + 1) →
         lookGetNext 3 c1_state =
           lookGetNext 3
             { queue := (sortByTrack c1_state.queue).erase cand
               direction_forward := dir
               same_track_count := 0
               last_track := c1_state.last_track }) ∧
      (¬ (c1_state.last_track = some cand.track ∧
          LOOK_MAX_SAME_TRACK ≤ c1_state.same_track_count + 1) →
         lookGetNext 3 c1_state =
           (some cand,
             { queue := (sortByTrack c1_state.queue).erase cand
               direction_forward := dir
               same_track_count :=
                 if c1_state.last_track = some cand.track then c1_state.same_track_count + 1 else 1
               last_track :=
                 if c1_state.last_track = some cand.track then c1_state.last_track
                 else some cand.track })) :=
  look_get_next_request_spec 3 c1_state (by decide)

/-! ## Claim C2 : eviction order on a miss with an empty free pool -/

theorem findSome_of_exists {α} (p : α → Bool) (l : List α)
    (hx : ∃ a ∈ l, p a = true) : ∃ b, l.find? p = some b := by
  induction l with
  | nil => simp at hx
  | cons a as ih =>
    by_cases hpa : p a = true
    · exact ⟨a, by simp [List.find?, hpa]⟩
    · obtain ⟨x, hx1, hx2⟩ := hx
      rcases List.mem_cons.mp hx1 with rfl | hmem
      · exact absurd hx2 hpa
      · obtain ⟨b, hb⟩ := ih ⟨x, hmem, hx2⟩
        exact ⟨b, by simp [List.find?, Bool.of_not_eq_true hpa, hb]⟩

theorem findSome_split {α} (p : α → Bool) (l : List α) (b : α)
    (h : l.find? p = some b) :
    p b = true ∧ ∃ pre post, l = pre ++ b :: post ∧ ∀ a ∈ pre, p a = false := by
  induction l with
  | nil => simp [List.find?] at h
  | cons a as ih =>
    rcases hpa : p a with _ | _
    · rw [List.find?_cons_of_neg _ (by simp [hpa])] at h
      obtain ⟨hpb, pre, post, hsplit, hpre⟩ := ih h
      refine ⟨hpb, a :: pre, post, by simp [hsplit], ?_⟩
      intro x hx
      rcases List.mem_cons.mp hx with rfl | hmem
      · exact hpa
      · exact hpre x hmem
    · rw [List.find?_cons_of_pos _ hpa] at h
      obtain rfl : a = b := by simpa using h
      exact ⟨hpa, [], as, rfl, by simp⟩

theorem minCounter_cons (x y : Nat) (ys : List Nat) :
    minCounter x (y :: ys) = minCounter (min x y) ys := rfl

theorem minCounter_le (x : Nat) (xs : List Nat) :
    ∀ y ∈ x :: xs, minCounter x xs ≤ y := by
  induction xs generalizing x with
  | nil => simp [minCounter]
  | cons y ys ih =>
    intro z hz
    rw [minCounter_cons]
    simp only [List.mem_cons] at hz
    rcases hz with rfl | rfl | hz
    · exact le_trans (ih (min z y) (min z y) (by simp)) (min_le_left z y)
    · exact le_trans (ih (min x z) (min x z) (by simp)) (min_le_right x z)
    · exact ih (min x y) z (by simp [hz])

theorem minCounter_mem (x : Nat) (xs : List Nat) :
    minCounter x xs ∈ x :: xs := by
  induction xs generalizing x with
  | nil => simp [minCounter]
  | cons y ys ih =>
    rw [minCounter_cons]
    have := ih (min x y)
    rcases List.mem_cons.mp this with heq | hmem
    · rcases min_choice x y with hm | hm
      · exact List.mem_cons.mpr (Or.inl (heq.trans hm))
      · simp [heq.trans hm]
    · simp [hmem]

/-- The victim chosen by `_get_free_buffer` in the clean-Right case:
clean, of minimal counter among the clean buffers of Right, and the first
such buffer scanning Right from the front. -/
theorem get_free_buffer_right_clean (c : Cache) (hfree : c.free_buffers = [])
    (hex : ∃ j ∈ c.right_segment, (c.store j).is_dirty = false) :
    ∃ i c', get_free_buffer c = some (i, c') ∧
      i ∈ c.right_segment ∧ (c.store i).is_dirty = false ∧
      (∀ j ∈ c.right_segment, (c.store j).is_dirty = false →
        (c.store i).counter ≤ (c.store j).counter) ∧
      ∃ pre post, c.right_segment = pre ++ i :: post ∧
        ∀ j ∈ pre, ¬ ((c.store j).is_dirty = false ∧
                      (c.store j).counter = (c.store i).counter) := by
  obtain ⟨j0, hj0r, hj0c⟩ := hex
  rcases hr : c.right_segment with _ | ⟨r, rs⟩
  · rw [hr] at hj0r
    exact absurd hj0r (List.not_mem_nil j0)
  have hj0r' : j0 ∈ r :: rs := by rw [← hr]; exact hj0r
  have hj0f : j0 ∈ (r :: rs).filter (fun j => !(c.store j).is_dirty) :=
    List.mem_filter.mpr ⟨hj0r', by simp [hj0c]⟩
  rcases hcl : (r :: rs).filter (fun j => !(c.store j).is_dirty) with _ | ⟨cb, cbs⟩
  · rw [hcl] at hj0f
    exact absurd hj0f (List.not_mem_nil j0)
  -- the minimal clean counter is achieved by some clean buffer
  have hmmem : minCounter (c.store cb).counter (cbs.map (fun j => (c.store j).counter))
      ∈ (cb :: cbs).map (fun j => (c.store j).counter) := by
    rw [List.map_cons]
    exact minCounter_mem _ _
  obtain ⟨ja, hja, hjam⟩ := List.mem_map.mp hmmem
  have hjaf : ja ∈ (r :: rs).filter (fun j => !(c.store j).is_dirty) := by
    rw [hcl]; exact hja
  have hjar := List.mem_filter.mp hjaf
  have hfind : ∃ i, (r :: rs).find?
      (fun k => !(c.store k).is_dirty &&
        (c.store k).counter == minCounter (c.store cb).counter
          (cbs.map (fun j => (c.store j).counter))) = some i := by
    apply findSome_of_exists
    refine ⟨ja, hjar.1, ?_⟩
    simp only [Bool.and_eq_true, beq_iff_eq]
    exact ⟨hjar.2, hjam⟩
  obtain ⟨i, hi⟩ := hfind
  obtain ⟨hpi, pre, post, hsplit, hpre⟩ := findSome_split _ _ _ hi
  simp only [Bool.and_eq_true, beq_iff_eq, Bool.not_eq_true'] at hpi
  refine ⟨i, { c with right_segment := (r :: rs).erase i
                      store := setSegTag c.store i none }, ?_, ?_, ?_, ?_, ?_⟩
  · simp only [get_free_buffer, hfree, hr, hcl, hi]
  · rw [hsplit]; simp
  · exact hpi.1
  · intro j hjr hjc
    rw [hpi.2]
    have hjf : j ∈ cb :: cbs := by
      rw [← hcl]
      exact List.mem_filter.mpr ⟨hjr, by simp [hjc]⟩
    have : (c.store j).counter ∈ (cb :: cbs).map (fun j => (c.store j).counter) :=
      List.mem_map.mpr ⟨j, hjf, rfl⟩
    rw [List.map_cons] at this
    exact minCounter_le _ _ _ this
  · refine ⟨pre, post, hsplit, ?_⟩
    intro j hj hcontra
    have := hpre j hj
    simp only [Bool.and_eq_false_iff, Bool.not_eq_false', beq_eq_false_iff_ne] at this
    rcases this with hd | hne
    · rw [hcontra.1] at hd
      simp at hd
    · exact hne (hcontra.2.trans hpi.2)

/-- The victim chosen by `_get_free_buffer` when Right is non-empty but
all-dirty: minimal counter, first encountered from the front of Right. -/
theorem get_free_buffer_right_dirty (c : Cache) (hfree : c.free_buffers = [])
    (hne : c.right_segment ≠ [])
    (hall : ∀ j ∈ c.right_segment, (c.store j).is_dirty = true) :
    ∃ i c', get_free_buffer c = some (i, c') ∧
      i ∈ c.right_segment ∧
      (∀ j ∈ c.right_segment, (c.store i).counter ≤ (c.store j).counter) ∧
      ∃ pre post, c.right_segment = pre ++ i :: post ∧
        ∀ j ∈ pre, (c.store j).counter ≠ (c.store i).counter := by
  rcases hr : c.right_segment with _ | ⟨r, rs⟩
  · exact absurd hr hne
  have hcl : (r :: rs).filter (fun j => !(c.store j).is_dirty) = [] := by
    rw [List.filter_eq_nil_iff]
    intro j hj
    have := hall j (by rw [hr]; exact hj)
    simp [this]
  have hmmem : minCounter (c.store r).counter (rs.map (fun j => (c.store j).counter))
      ∈ (r :: rs).map (fun j => (c.store j).counter) := by
    rw [List.map_cons]
    exact minCounter_mem _ _
  obtain ⟨ja, hja, hjam⟩ := List.mem_map.mp hmmem
  have hfind : ∃ i, (r :: rs).find?
      (fun k => (c.store k).counter == minCounter (c.store r).counter
          (rs.map (fun j => (c.store j).counter))) = some i := by
    apply findSome_of_exists
    refine ⟨ja, hja, ?_⟩
    simpa using hjam
  obtain ⟨i, hi⟩ := hfind
  obtain ⟨hpi, pre, post, hsplit, hpre⟩ := findSome_split _ _ _ hi
  simp only [beq_iff_eq] at hpi
  refine ⟨i, { c with right_segment := (r :: rs).erase i
                      store := setSegTag c.store i none }, ?_, ?_, ?_, ?_⟩
  · simp only [get_free_buffer, hfree, hr, hcl, hi]
  · rw [hsplit]; simp
  · intro j hjr
    rw [hpi]
    have : (c.store j).counter ∈ (r :: rs).map (fun j => (c.store j).counter) :=
      List.mem_map.mpr ⟨j, hjr, rfl⟩
    rw [List.map_cons] at this
    exact minCounter_le _ _ _ this
  · refine ⟨pre, post, hsplit, ?_⟩
    intro j hj
    have := hpre j hj
    simp only [beq_eq_false_iff_ne] at this
    rw [hpi]
    exact this

/-- `_get_free_buffer` pops the tail of Middle when Right is empty. -/
theorem get_free_buffer_middle (c : Cache) (hfree : c.free_buffers = [])
    (hright : c.right_segment = []) (hne : c.middle_segment ≠ []) :
    ∃ i c', get_free_buffer c = some (i, c') ∧
      c.middle_segment.getLast? = some i := by
  rcases hl : c.middle_segment.getLast? with _ | i
  · rw [List.getLast?_eq_none_iff] at hl
    exact absurd hl hne
  refine ⟨i, { c with middle_segment := c.middle_segment.dropLast
                      store := setSegTag c.store i none }, ?_, rfl⟩
  simp only [get_free_buffer, hfree, hright, hl]

/-- `_get_free_buffer` pops the tail of Left when Right and Middle are
empty. -/
theorem get_free_buffer_left (c : Cache) (hfree : c.free_buffers = [])
    (hright : c.right_segment = []) (hmid : c.middle_segment = [])
    (hne : c.left_segment ≠ []) :
    ∃ i c', get_free_buffer c = some (i, c') ∧
      c.left_segment.getLast? = some i := by
  rcases hl : c.left_segment.getLast? with _ | i
  · rw [List.getLast?_eq_none_iff] at hl
    exact absurd hl hne
  have hm : c.middle_segment.getLast? = none := by
    rw [hmid]; rfl
  refine ⟨i, { c with left_segment := c.left_segment.dropLast
                      store := setSegTag c.store i none }, ?_, rfl⟩
  simp only [get_free_buffer, hfree, hright, hm, hl]

/-- C2: when `access_buffer` misses and the free pool is empty, the
replacement buffer is chosen in the fixed order: first clean
minimal-counter buffer of Right (ties to the first encountered scanning
Right from the front); if Right is non-empty but all-dirty, the first
minimal-counter buffer of Right; otherwise the tail of Middle; otherwise
the tail of Left. -/
theorem eviction_order_on_miss (c : Cache) (sector : Nat) (w : Bool)
    (hmiss : find_buffer c sector = none)
    (hfree : c.free_buffers = []) :
    ((∃ j ∈ c.right_segment, (c.store j).is_dirty = false) →
       ∃ i res, access_buffer c sector w = some (i, false, !w, res) ∧
         i ∈ c.right_segment ∧ (c.store i).is_dirty = false ∧
         (∀ j ∈ c.right_segment, (c.store j).is_dirty = false →
            (c.store i).counter ≤ (c.store j).counter) ∧
         ∃ pre post, c.right_segment = pre ++ i :: post ∧
           ∀ j ∈ pre, ¬ ((c.store j).is_dirty = false ∧
                         (c.store j).counter = (c.store i).counter))
    ∧ (c.right_segment ≠ [] →
       (∀ j ∈ c.right_segment, (c.store j).is_dirty = true) →
       ∃ i res, access_buffer c sector w = some (i, false, !w, res) ∧
         i ∈ c.right_segment ∧
         (∀ j ∈ c.right_segment, (c.store i).counter ≤ (c.store j).counter) ∧
         ∃ pre post, c.right_segment = pre ++ i :: post ∧
           ∀ j ∈ pre, (c.store j).counter ≠ (c.store i).counter)
    ∧ (c.right_segment = [] → c.middle_segment ≠ [] →
       ∃ i res, access_buffer c sector w = some (i, false, !w, res) ∧
         c.middle_segment.getLast? = some i)
    ∧ (c.right_segment = [] → c.middle_segment = [] → c.left_segment ≠ [] →
       ∃ i res, access_buffer c sector w = some (i, false, !w, res) ∧
         c.left_segment.getLast? = some i) := by
  refine ⟨?_, ?_, ?_, ?_⟩
  · intro hex
    obtain ⟨i, c', hgfb, him, hic, hmin, pre, post, hsp, hpre⟩ :=
      get_free_buffer_right_clean { c with misses := c.misses + 1 } hfree hex
    obtain ⟨res, hres⟩ : ∃ res, access_buffer c sector w = some (i, false, !w, res) := by
      simp only [access_buffer, hmiss, hgfb]
      exact ⟨_, rfl⟩
    exact ⟨i, res, hres, him, hic, hmin, pre, post, hsp, hpre⟩
  · intro hne hall
    obtain ⟨i, c', hgfb, him, hmin, pre, post, hsp, hpre⟩ :=
      get_free_buffer_right_dirty { c with misses := c.misses + 1 } hfree hne hall
    obtain ⟨res, hres⟩ : ∃ res, access_buffer c sector w = some (i, false, !w, res) := by
      simp only [access_buffer, hmiss, hgfb]
      exact ⟨_, rfl⟩
    exact ⟨i, res, hres, him, hmin, pre, post, hsp, hpre⟩
  · intro hright hne
    obtain ⟨i, c', hgfb, hlast⟩ :=
      get_free_buffer_middle { c with misses := c.misses + 1 } hfree hright hne
    obtain ⟨res, hres⟩ : ∃ res, access_buffer c sector w = some (i, false, !w, res) := by
      simp only [access_buffer, hmiss, hgfb]
      exact ⟨_, rfl⟩
    exact ⟨i, res, hres, hlast⟩
  · intro hright hmid hne
    obtain ⟨i, c', hgfb, hlast⟩ :=
      get_free_buffer_left { c with misses := c.misses + 1 } hfree hright hmid hne
    obtain ⟨res, hres⟩ : ∃ res, access_buffer c sector w = some (i, false, !w, res) := by
      simp only [access_buffer, hmiss, hgfb]
      exact ⟨_, rfl⟩
    exact ⟨i, res, hres, hlast⟩

/-- A concrete cache (both Right buffers present, one clean) for the C2
witness. -/
def c2_cache : Cache :=
  { size := 2
    left_max := 4
    middle_max := 3
    store := fun i =>
      if i = 0 then { sector := some 5, is_dirty := true, counter := 3, segment := some Seg.right }
      else { sector := some 6, is_dirty := false, counter := 7, segment := some Seg.right }
    left_segment := []
    middle_segment := []
    right_segment := [0, 1]
    free_buffers := []
    sector_to_buffer := fun s => if s = 5 then some 0 else if s = 6 then some 1 else none
    hits := 0
    misses := 0 }

/-- Witness for C2: on the concrete cache the clean-Right case applies. -/
theorem eviction_order_on_miss_witness :
    ∃ i res, access_buffer c2_cache 9 false = some (i, false, !false, res) ∧
      i ∈ c2_cache.right_segment ∧ (c2_cache.store i).is_dirty = false ∧
      (∀ j ∈ c2_cache.right_segment, (c2_cache.store j).is_dirty = false →
         (c2_cache.store i).counter ≤ (c2_cache.store j).counter) ∧
      ∃ pre post, c2_cache.right_segment = pre ++ i :: post ∧
        ∀ j ∈ pre, ¬ ((c2_cache.store j).is_dirty = false ∧
                      (c2_cache.store j).counter = (c2_cache.store i).counter) :=
  (eviction_order_on_miss c2_cache 9 false (by decide) rfl).1
    ⟨1, by decide, by decide⟩

/-! ## Claim C3 : promotion on a cache hit -/

theorem setSegTag_counter (st : Nat → Buffer) (k : Nat) (seg : Option Seg) (j : Nat) :
    (setSegTag st k seg j).counter = (st j).counter := by
  rw [setSegTag, updStore]
  by_cases h : j = k
  · subst h; simp
  · simp [h]

theorem setSegTag_other (st : Nat → Buffer) (k : Nat) (seg : Option Seg) (j : Nat)
    (hne : j ≠ k) : setSegTag st k seg j = st j := by
  rw [setSegTag, updStore]
  simp [hne]

theorem demoteLoop_counter (seg_max : Nat) (tag : Seg) (fuel : Nat)
    (st : Nat → Buffer) (src dst : List Nat) (j : Nat) :
    ((demoteLoop seg_max tag fuel st src dst).1 j).counter = (st j).counter := by
  induction fuel generalizing st src dst with
  | zero => rfl
  | succ fuel ih =>
    rw [demoteLoop]
    by_cases h : seg_max < src.length
    · rw [if_pos h]
      rcases hl : src.getLast? with _ | k
      · rfl
      · rw [ih]
        exact setSegTag_counter st k (some tag) j
    · rw [if_neg h]

theorem rebalance_counter (c : Cache) (j : Nat) :
    ((rebalance c).store j).counter = (c.store j).counter := by
  rw [rebalance]
  simp only [demoteLoop_counter]

/-- Demoting from a list with head `i` never pops the head as long as
the cap is at least 1. -/
theorem mem_of_getLastSome {α : Type} {l : List α} {k : α}
    (hl : l.getLast? = some k) : k ∈ l := by
  obtain ⟨h, hk⟩ := List.mem_getLast?_eq_getLast (show k ∈ l.getLast? from hl)
  rw [hk]
  exact List.getLast_mem h

theorem demoteLoop_head (seg_max : Nat) (tag : Seg) (fuel : Nat)
    (st : Nat → Buffer) (i : Nat) (l dst : List Nat) (h1 : 1 ≤ seg_max) :
    (demoteLoop seg_max tag fuel st (i :: l) dst).2.1.head? = some i := by
  induction fuel generalizing st l dst with
  | zero => rfl
  | succ fuel ih =>
    rw [demoteLoop]
    by_cases h : seg_max < (i :: l).length
    · rw [if_pos h]
      rcases l with _ | ⟨x, xs⟩
      · simp at h
        omega
      · rw [List.getLast?_cons_cons]
        rcases hl : (x :: xs).getLast? with _ | k
        · rw [List.getLast?_eq_none_iff] at hl
          exact absurd hl (by simp)
        · rw [show (i :: x :: xs).dropLast = i :: (x :: xs).dropLast from rfl]
          exact ih _ _ _
    · rw [if_neg h]
      rfl

/-- Demoting never touches the store entry of a buffer that is not in
the source list. -/
theorem demoteLoop_store_not_mem (seg_max : Nat) (tag : Seg) (fuel : Nat)
    (st : Nat → Buffer) (src dst : List Nat) (i : Nat) (hni : i ∉ src) :
    (demoteLoop seg_max tag fuel st src dst).1 i = st i := by
  induction fuel generalizing st src dst with
  | zero => rfl
  | succ fuel ih =>
    rw [demoteLoop]
    by_cases h : seg_max < src.length
    · rw [if_pos h]
      rcases hl : src.getLast? with _ | k
      · rfl
      · have hk : k ∈ src := mem_of_getLastSome hl
        have hdl : i ∉ src.dropLast := fun hmem => hni (List.dropLast_subset src hmem)
        rw [ih _ _ _ hdl]
        exact setSegTag_other st k (some tag) i (fun he => hni (he ▸ hk))
    · rw [if_neg h]

/-- With cap at least 1 and no duplicate of the head in the tail, the
head's store entry survives a demote pass untouched. -/
theorem demoteLoop_store_head (seg_max : Nat) (tag : Seg) (fuel : Nat)
    (st : Nat → Buffer) (i : Nat) (l dst : List Nat) (h1 : 1 ≤ seg_max)
    (hni : i ∉ l) :
    (demoteLoop seg_max tag fuel st (i :: l) dst).1 i = st i := by
  induction fuel generalizing st l dst with
  | zero => rfl
  | succ fuel ih =>
    rw [demoteLoop]
    by_cases h : seg_max < (i :: l).length
    · rw [if_pos h]
      rcases l with _ | ⟨x, xs⟩
      · rw [List.length_cons, List.length_nil] at h
        omega
      · rw [List.getLast?_cons_cons]
        rcases hl : (x :: xs).getLast? with _ | k
        · simp at hl
        · have hk : k ∈ x :: xs := mem_of_getLastSome hl
          have hdl : i ∉ (x :: xs).dropLast := fun hmem =>
            hni (List.dropLast_subset _ hmem)
          rw [show (i :: x :: xs).dropLast = i :: (x :: xs).dropLast from rfl]
          rw [ih _ _ _ hdl]
          exact setSegTag_other st k (some tag) i (fun he => hni (he ▸ hk))
    · rw [if_neg h]

/-- With cap at least 1 and no duplicate of the head, the head never
leaks into the destination list of a demote pass. -/
theorem demoteLoop_not_mem_dst (seg_max : Nat) (tag : Seg) (fuel : Nat)
    (st : Nat → Buffer) (i : Nat) (l dst : List Nat) (h1 : 1 ≤ seg_max)
    (hni : i ∉ l) (hnd : i ∉ dst) :
    i ∉ (demoteLoop seg_max tag fuel st (i :: l) dst).2.2 := by
  induction fuel generalizing st l dst with
  | zero => exact hnd
  | succ fuel ih =>
    rw [demoteLoop]
    by_cases h : seg_max < (i :: l).length
    · rw [if_pos h]
      rcases l with _ | ⟨x, xs⟩
      · simp at h
        omega
      · rw [List.getLast?_cons_cons]
        rcases hl : (x :: xs).getLast? with _ | k
        · rw [List.getLast?_eq_none_iff] at hl
          exact absurd hl (by simp)
        · have hk : k ∈ x :: xs := mem_of_getLastSome hl
          have hdl : i ∉ (x :: xs).dropLast := fun hmem =>
            hni (List.dropLast_subset _ hmem)
          rw [show (i :: x :: xs).dropLast = i :: (x :: xs).dropLast from rfl]
          refine ih _ _ _ hdl ?_
          intro hmem
          rcases List.mem_cons.mp hmem with rfl | hmem'
          · exact hni hk
          · exact hnd hmem'
    · rw [if_neg h]
      exact hnd

/-- The segment tag of the untouched head after a full rebalance. -/
theorem rebalance_store_head (c : Cache) (i : Nat) (l : List Nat)
    (hleft : c.left_segment = i :: l) (h1 : 1 ≤ c.left_max)
    (hni : i ∉ l) (hnm : i ∉ c.middle_segment) :
    (rebalance c).store i = c.store i ∧
    (rebalance c).left_segment.head? = some i := by
  rw [rebalance]
  simp only [hleft]
  constructor
  · rw [demoteLoop_store_not_mem _ _ _ _ _ _ i
      (demoteLoop_not_mem_dst c.left_max Seg.middle (i :: l).length c.store i l
        c.middle_segment h1 hni hnm)]
    exact demoteLoop_store_head _ _ _ _ _ _ _ h1 hni
  · exact demoteLoop_head _ _ _ _ _ _ _ h1

/-- The counter after `_move_to_left`: incremented exactly when the
previous segment tag was middle or right. -/
theorem move_to_left_counter (c : Cache) (i : Nat) :
    ((move_to_left c i).store i).counter =
      (c.store i).counter +
        (if (c.store i).segment = some Seg.middle ∨ (c.store i).segment = some Seg.right
         then 1 else 0) := by
  by_cases hseg : (c.store i).segment = some Seg.middle ∨ (c.store i).segment = some Seg.right <;>
    by_cases hl : i ∈ c.left_segment <;>
    by_cases hm : i ∈ c.middle_segment <;>
    by_cases hr : i ∈ c.right_segment <;>
    simp [move_to_left, hseg, hl, hm, hr, rebalance_counter, updStore]

/-- After `_move_to_left` (with a positive Left cap and no duplicated
id) the buffer sits at the front of Left with segment tag `left`, and
the sector map is untouched. -/
theorem move_to_left_head_seg (c : Cache) (i : Nat)
    (h1 : 1 ≤ c.left_max)
    (hcount : (c.left_segment ++ c.middle_segment ++ c.right_segment).count i ≤ 1) :
    (move_to_left c i).left_segment.head? = some i ∧
    ((move_to_left c i).store i).segment = some Seg.left ∧
    (move_to_left c i).sector_to_buffer = c.sector_to_buffer := by
  have happ : (c.left_segment ++ c.middle_segment ++ c.right_segment).count i =
      c.left_segment.count i + c.middle_segment.count i + c.right_segment.count i := by
    simp [List.count_append]
    omega
  rw [happ] at hcount
  by_cases hl : i ∈ c.left_segment
  · have hcl : c.left_segment.count i ≠ 0 := fun h0 => (List.count_eq_zero.mp h0) hl
    have hniB : i ∉ c.middle_segment :=
      List.count_eq_zero.mp (by omega)
    have hniA : i ∉ c.left_segment.erase i := by
      apply List.count_eq_zero.mp
      rw [List.count_erase_self]
      omega
    simp only [move_to_left, if_pos hl, rebalance]
    refine ⟨?_, ?_, by trivial⟩
    · exact demoteLoop_head _ _ _ _ _ _ _ h1
    · rw [demoteLoop_store_not_mem _ _ _ _ _ _ i
        (demoteLoop_not_mem_dst _ _ _ _ _ _ _ h1 hniA hniB),
        demoteLoop_store_head _ _ _ _ _ _ _ h1 hniA]
      simp [updStore]
  · by_cases hm : i ∈ c.middle_segment
    · have hcm : c.middle_segment.count i ≠ 0 := fun h0 => (List.count_eq_zero.mp h0) hm
      have hniB : i ∉ c.middle_segment.erase i := by
        apply List.count_eq_zero.mp
        rw [List.count_erase_self]
        omega
      simp only [move_to_left, if_neg hl, if_pos hm, rebalance]
      refine ⟨?_, ?_, by trivial⟩
      · exact demoteLoop_head _ _ _ _ _ _ _ h1
      · rw [demoteLoop_store_not_mem _ _ _ _ _ _ i
          (demoteLoop_not_mem_dst _ _ _ _ _ _ _ h1 hl hniB),
          demoteLoop_store_head _ _ _ _ _ _ _ h1 hl]
        simp [updStore]
    · by_cases hr : i ∈ c.right_segment
      · simp only [move_to_left, if_neg hl, if_neg hm, if_pos hr, rebalance]
        refine ⟨?_, ?_, by trivial⟩
        · exact demoteLoop_head _ _ _ _ _ _ _ h1
        · rw [demoteLoop_store_not_mem _ _ _ _ _ _ i
            (demoteLoop_not_mem_dst _ _ _ _ _ _ _ h1 hl hm),
            demoteLoop_store_head _ _ _ _ _ _ _ h1 hl]
          simp [updStore]
      · simp only [move_to_left, if_neg hl, if_neg hm, if_neg hr, rebalance]
        refine ⟨?_, ?_, by trivial⟩
        · exact demoteLoop_head _ _ _ _ _ _ _ h1
        · rw [demoteLoop_store_not_mem _ _ _ _ _ _ i
            (demoteLoop_not_mem_dst _ _ _ _ _ _ _ h1 hl hm),
            demoteLoop_store_head _ _ _ _ _ _ _ h1 hl]
          simp [updStore]

theorem setDirty_counter (c : Cache) (i : Nat) (v : Bool) (j : Nat) :
    ((setDirty c i v).store j).counter = (c.store j).counter := by
  rw [setDirty]
  by_cases h : j = i
  · subst h; simp [updStore]
  · simp [updStore, h]

theorem setDirty_segment (c : Cache) (i : Nat) (v : Bool) (j : Nat) :
    ((setDirty c i v).store j).segment = (c.store j).segment := by
  rw [setDirty]
  by_cases h : j = i
  · subst h; simp [updStore]
  · simp [updStore, h]

/-- On a hit the returned cache's counter for the hit buffer follows the
cold-to-hot increment rule (no well-formedness hypotheses needed). -/
theorem access_hit_counter_eq (c : Cache) (sector i : Nat) (w : Bool)
    (hhit : find_buffer c sector = some i) :
    ∃ c', access_buffer c sector w = some (i, true, false, c') ∧
      (c'.store i).counter = (c.store i).counter +
        (if (c.store i).segment = some Seg.middle ∨ (c.store i).segment = some Seg.right
         then 1 else 0) := by
  refine ⟨(if w then setDirty (move_to_left { c with hits := c.hits + 1 } i) i true
           else move_to_left { c with hits := c.hits + 1 } i), ?_, ?_⟩
  · simp only [access_buffer, hhit]
  · by_cases hw : w = true <;>
      simp only [hw, if_pos, if_neg, Bool.false_eq_true, not_false_iff] <;>
      [rw [setDirty_counter]; skip] <;>
      exact move_to_left_counter { c with hits := c.hits + 1 } i

/-- C3: a cache hit moves the buffer to the front of Left; its counter
is incremented if and only if its segment before the access was Middle
or Right; and a second consecutive access to the same sector (which then
finds the buffer in Left) leaves the counter unchanged. -/
theorem promotion_on_hit (c : Cache) (sector i : Nat) (w : Bool)
    (hhit : find_buffer c sector = some i)
    (h1 : 1 ≤ c.left_max)
    (hcount : (c.left_segment ++ c.middle_segment ++ c.right_segment).count i ≤ 1) :
    ∃ c', access_buffer c sector w = some (i, true, false, c') ∧
      c'.left_segment.head? = some i ∧
      ((c'.store i).counter = (c.store i).counter + 1 ↔
         ((c.store i).segment = some Seg.middle ∨ (c.store i).segment = some Seg.right)) ∧
      ((c'.store i).counter = (c.store i).counter ↔
         ¬ ((c.store i).segment = some Seg.middle ∨ (c.store i).segment = some Seg.right)) ∧
      (∀ w2, ∃ c'', access_buffer c' sector w2 = some (i, true, false, c'') ∧
        (c''.store i).counter = (c'.store i).counter) := by
  have hms := move_to_left_head_seg { c with hits := c.hits + 1 } i h1 hcount
  have hml := move_to_left_counter { c with hits := c.hits + 1 } i
  refine ⟨(if w then setDirty (move_to_left { c with hits := c.hits + 1 } i) i true
           else move_to_left { c with hits := c.hits + 1 } i), ?_, ?_, ?_, ?_, ?_⟩
  · simp only [access_buffer, hhit]
  · by_cases hw : w = true <;> simp only [hw, if_pos, if_neg, Bool.false_eq_true,
      not_false_iff, setDirty] <;> exact hms.1
  · by_cases hw : w = true <;>
      simp only [hw, if_pos, if_neg, Bool.false_eq_true, not_false_iff] <;>
      [rw [setDirty_counter, hml]; rw [hml]] <;>
      by_cases hseg : (c.store i).segment = some Seg.middle ∨ (c.store i).segment = some Seg.right <;>
      simp [hseg]
  · by_cases hw : w = true <;>
      simp only [hw, if_pos, if_neg, Bool.false_eq_true, not_false_iff] <;>
      [rw [setDirty_counter, hml]; rw [hml]] <;>
      by_cases hseg : (c.store i).segment = some Seg.middle ∨ (c.store i).segment = some Seg.right <;>
      simp [hseg]
  · intro w2
    have hmap : (if w then setDirty (move_to_left { c with hits := c.hits + 1 } i) i true
        else move_to_left { c with hits := c.hits + 1 } i).sector_to_buffer
        = c.sector_to_buffer := by
      by_cases hw : w = true <;>
        simp only [hw, if_pos, if_neg, Bool.false_eq_true, not_false_iff, setDirty] <;>
        exact hms.2.2
    have hseg2 : ((if w then setDirty (move_to_left { c with hits := c.hits + 1 } i) i true
        else move_to_left { c with hits := c.hits + 1 } i).store i).segment
        = some Seg.left := by
      by_cases hw : w = true <;>
        simp only [hw, if_pos, if_neg, Bool.false_eq_true, not_false_iff] <;>
        [rw [setDirty_segment]; skip] <;> exact hms.2.1
    have hhit2 : find_buffer (if w then setDirty (move_to_left { c with hits := c.hits + 1 } i) i true
        else move_to_left { c with hits := c.hits + 1 } i) sector = some i := by
      rw [find_buffer, hmap]
      exact hhit
    obtain ⟨c'', hacc2, hcnt2⟩ := access_hit_counter_eq _ sector i w2 hhit2
    refine ⟨c'', hacc2, ?_⟩
    rw [hcnt2, hseg2]
    simp

/-- A concrete cache (one buffer, currently in Middle) for the C3
witness. -/
def c3_cache : Cache :=
  { size := 2
    left_max := 4
    middle_max := 3
    store := fun i =>
      if i = 0 then { sector := some 5, is_dirty := false, counter := 2, segment := some Seg.middle }
      else initBuffer
    left_segment := []
    middle_segment := [0]
    right_segment := []
    free_buffers := [1]
    sector_to_buffer := fun s => if s = 5 then some 0 else none
    hits := 0
    misses := 0 }

/-- Witness for C3 at the concrete cache. -/
theorem promotion_on_hit_witness :
    ∃ c', access_buffer c3_cache 5 false = some (0, true, false, c') ∧
      c'.left_segment.head? = some 0 ∧
      ((c'.store 0).counter = (c3_cache.store 0).counter + 1 ↔
         ((c3_cache.store 0).segment = some Seg.middle ∨
          (c3_cache.store 0).segment = some Seg.right)) ∧
      ((c'.store 0).counter = (c3_cache.store 0).counter ↔
         ¬ ((c3_cache.store 0).segment = some Seg.middle ∨
            (c3_cache.store 0).segment = some Seg.right)) ∧
      (∀ w2, ∃ c'', access_buffer c' 5 w2 = some (0, true, false, c'') ∧
        (c''.store 0).counter = (c'.store 0).counter) :=
  promotion_on_hit c3_cache 5 0 false (by decide) (by decide) (by decide)

/-! ## Claim C7 : disk seek-cost formula and head movement -/


theorem rmin_eq_min (a b : ℚ) : rmin a b = min a b := by
  rw [rmin, min_def]

theorem rabs_eq_abs (a : ℚ) : rabs a = |a| := by
  rw [rabs]
  by_cases h : a < 0
  · rw [if_pos h, abs_of_neg h]
  · rw [if_neg h, abs_of_nonneg (le_of_not_lt h)]

/-- C7: for every target track `T` and head position, the seek cost is
`min(direct, edge_via_0, edge_via_last)` with
`direct = |T − current| · track_seek`,
`edge_via_0 = edge_seek + T · track_seek` and
`edge_via_last = edge_seek + (tracks − 1 − T) · track_seek`; and starting
service of a request moves the head to its track. -/
theorem seek_time_formula_and_head_moves :
    (∀ (d : HardDisk) (T : Nat),
      calculate_seek_time d T =
        min (min (|((T : ℚ) - (d.current_track : ℚ))| * TRACK_SEEK_TIME)
                 (EDGE_SEEK_TIME + (T : ℚ) * TRACK_SEEK_TIME))
            (EDGE_SEEK_TIME + ((DISK_TRACKS : ℚ) - 1 - (T : ℚ)) * TRACK_SEEK_TIME))
    ∧ (∀ (s : Sys) (r : DiskRequest) (sch' : Sched),
        s.pending_disk_operations = [] →
        hasRequests s.sched = true →
        getNextRequest s.sched s.disk.current_track = (some r, sch') →
        (process_disk_queue s).disk.current_track = r.track) := by
  constructor
  · intro d T
    rw [calculate_seek_time]
    simp only [rmin_eq_min, rabs_eq_abs]
  · intro s r sch' hpend hreq hget
    rw [process_disk_queue]
    rw [hpend, hreq, hget]
    simp

/-- Witness for C7 at a concrete state: one FIFO request for sector 700
(track 1) with an idle disk; starting it moves the head to track 1. -/
theorem seek_time_formula_and_head_moves_witness :
    (process_disk_queue
      { initSystem Policy.FIFO 0 [] with
          sched := Sched.fifo [mkDiskRequest 1 700 false 1 0] }).disk.current_track = 1 :=
  seek_time_formula_and_head_moves.2
    { initSystem Policy.FIFO 0 [] with
        sched := Sched.fifo [mkDiskRequest 1 700 false 1 0] }
    (mkDiskRequest 1 700 false 1 0) (Sched.fifo []) rfl rfl rfl

/-! ## Claim C5 : (absence of) sector-range validation -/

def c5_workload : List Process := [mkProcess 1 [(TOTAL_SECTORS, false)]]

def c5_run : Sys := run_simulation (initSystem Policy.FIFO 0 c5_workload)

/-- Counterexample to C5: a workload whose only step references sector
`TOTAL_SECTORS` (the first sector outside `[0, total_sectors)`) is not
rejected: the simulation runs to completion and the disk services the
out-of-range request, so no configuration error is surfaced before (or
instead of) simulation. -/
theorem out_of_range_sector_is_simulated :
    ¬ TOTAL_SECTORS < TOTAL_SECTORS ∧
    c5_run.crashed = false ∧
    c5_run.disk.completed_requests = 1 ∧
    c5_run.procs.all (fun p => p.state == PState.finished) = true := by
  refine ⟨Nat.lt_irrefl _, ?_, ?_, ?_⟩ <;> decide

/-- C5 as amended: the simulator performs no sector-range validation.
`DiskRequest` construction accepts every sector, deriving
`track = sector / SECTORS_PER_TRACK`, and a workload step with an
out-of-range sector is simulated like any other. -/
theorem no_sector_validation :
    (∀ (id sector : Nat) (w : Bool) (pid : Int) (t : ℚ),
       (mkDiskRequest id sector w pid t).track = sector / SECTORS_PER_TRACK) ∧
    c5_run.disk.completed_requests = 1 := by
  constructor
  · intro id sector w pid t
    rfl
  · decide

/-! ## Claim C9 : a preemption during the syscall charge consumes the step -/

/-- The program cursor of process `pid` in a process list, when present. -/
def cursorOf (ps : List Process) (pid : Nat) : Option Nat :=
  (lookupProc ps pid).map (fun p => p.current_index)

/-- The fields of the kernel state that `_execute_process` can only touch
through an explicit cache access or request submission: the scheduler, the
request counter, the cache hit/miss counters and every program cursor. -/
def SysInert (a b : Sys) : Prop :=
  b.sched = a.sched ∧ b.request_counter = a.request_counter ∧
  b.cache.hits = a.cache.hits ∧ b.cache.misses = a.cache.misses ∧
  ∀ pid, cursorOf b.procs pid = cursorOf a.procs pid

theorem sysInert_refl (a : Sys) : SysInert a a :=
  ⟨rfl, rfl, rfl, rfl, fun _ => rfl⟩

theorem sysInert_trans {a b c : Sys} (h1 : SysInert a b) (h2 : SysInert b c) :
    SysInert a c := by
  obtain ⟨x1, x2, x3, x4, x5⟩ := h1
  obtain ⟨y1, y2, y3, y4, y5⟩ := h2
  exact ⟨y1.trans x1, y2.trans x2, y3.trans x3, y4.trans x4,
         fun pid => (y5 pid).trans (x5 pid)⟩

theorem cursorOf_updProc (ps : List Process) (pid pid' : Nat) (g : Process → Process)
    (hg : ∀ q, (g q).pid = q.pid) (hc : ∀ q, (g q).current_index = q.current_index) :
    cursorOf (updProc ps pid g) pid' = cursorOf ps pid' := by
  induction ps with
  | nil => rfl
  | cons q qs ih =>
    rw [updProc]
    by_cases hq : q.pid = pid
    · rw [if_pos hq]
      simp only [cursorOf, lookupProc]
      cases hb : (q.pid == pid') with
      | true =>
        have hb' : ((g q).pid == pid') = true := by rw [hg]; exact hb
        simp only [List.find?_cons, hb, hb']
        simp [hc]
      | false =>
        have hb' : ((g q).pid == pid') = false := by rw [hg]; exact hb
        simp only [List.find?_cons, hb, hb']
    · rw [if_neg hq]
      simp only [cursorOf, lookupProc]
      cases hb : (q.pid == pid') with
      | true => simp only [List.find?_cons, hb]
      | false =>
        simp only [List.find?_cons, hb]
        exact ih

theorem lookupProc_updProc_self (ps : List Process) (pid : Nat)
    (g : Process → Process) (p : Process)
    (hg : ∀ q, (g q).pid = q.pid) (h : lookupProc ps pid = some p) :
    lookupProc (updProc ps pid g) pid = some (g p) := by
  induction ps with
  | nil => simp [lookupProc] at h
  | cons q qs ih =>
    rw [updProc]
    by_cases hq : q.pid = pid
    · rw [if_pos hq]
      have hb : (q.pid == pid) = true := by simpa using hq
      have hb' : ((g q).pid == pid) = true := by rw [hg]; exact hb
      simp only [lookupProc, List.find?_cons, hb, Option.some.injEq] at h
      simp only [lookupProc, List.find?_cons, hb']
      rw [h]
    · rw [if_neg hq]
      have hb : (q.pid == pid) = false := by simpa using hq
      simp only [lookupProc, List.find?_cons, hb] at h ⊢
      exact ih h

theorem sysInert_pendingSet (s : Sys) (l : List (ℚ × DiskRequest)) :
    SysInert s { s with pending_disk_operations := l } :=
  ⟨rfl, rfl, rfl, rfl, fun _ => rfl⟩

theorem sysInert_quantumDec (s : Sys) (t : ℚ) (pid : Nat) (seg : ℚ) :
    SysInert s { s with current_time := t
                        procs := updProc s.procs pid
                          (fun p => { p with remaining_quantum := p.remaining_quantum - seg }) } := by
  refine ⟨rfl, rfl, rfl, rfl, fun pid' => ?_⟩
  dsimp only
  rw [cursorOf_updProc]
  · exact fun q => rfl
  · exact fun q => rfl

theorem sysInert_hdi (s : Sys) (r : DiskRequest) :
    SysInert s (handle_disk_interrupt s r) := by
  rw [handle_disk_interrupt]
  dsimp only
  repeat' split
  all_goals refine ⟨rfl, rfl, rfl, rfl, fun pid' => ?_⟩
  all_goals dsimp only
  all_goals repeat rw [cursorOf_updProc]
  all_goals first
    | rfl
    | (intro q; rfl)

theorem sysInert_atwiAux (fuel : Nat) (pid : Nat) :
    ∀ (s : Sys) (tu rem : ℚ), SysInert s (atwiAux fuel s pid tu rem).1 := by
  induction fuel with
  | zero => intro s tu rem; exact sysInert_refl _
  | succ fuel ih =>
    intro s tu rem
    rw [atwiAux]
    dsimp only
    repeat' split
    all_goals first
      | exact sysInert_refl _
      | exact sysInert_quantumDec _ _ _ _
      | exact sysInert_trans (sysInert_quantumDec _ _ _ _) (ih _ _ _)
      | exact sysInert_trans (sysInert_quantumDec _ _ _ _)
          (sysInert_trans (sysInert_hdi _ _) (sysInert_pendingSet _ _))
      | exact sysInert_trans
          (sysInert_trans (sysInert_quantumDec _ _ _ _)
            (sysInert_trans (sysInert_hdi _ _) (sysInert_pendingSet _ _)))
          (ih _ _ _)

theorem sysInert_advance (s : Sys) (d : ℚ) :
    SysInert s (advance_time_with_interrupts s d).1 := by
  rw [advance_time_with_interrupts]
  split
  · exact ⟨rfl, rfl, rfl, rfl, fun _ => rfl⟩
  · exact sysInert_atwiAux _ _ _ _ _

/-- C9: if the running process is preempted during the syscall charge of a
program step (the CPU was handed to another process by the interrupt
handler, the charge was cut short, or the remaining quantum is exhausted),
the step is permanently consumed: the cursor has already moved past the
`(sector, mode)` pair, yet no cache access happens (hit and miss counters
are unchanged), no disk request is submitted (scheduler state and request
counter are unchanged) — the operation is skipped, not retried. -/
theorem preempted_syscall_step_consumed
    (s : Sys) (pid : Nat) (p : Process) (sA : Sys) (adv : Sys × ℚ × Bool) (s1 : Sys)
    (hcp : s.current_process = some pid)
    (hlp : lookupProc s.procs pid = some p)
    (hw : p.current_index < p.program.length)
    (hsA : sA = { s with
        procs := updProc s.procs pid (fun q => { q with current_index := q.current_index + 1 })
        trace := s.trace ++ [TraceEvt.syscallOp pid
          (p.program.get ⟨p.current_index, hw⟩).1 (p.program.get ⟨p.current_index, hw⟩).2] })
    (hadv : adv = advance_time_with_interrupts sA
        (if (p.program.get ⟨p.current_index, hw⟩).2 = true then SYSCALL_WRITE_TIME
         else SYSCALL_READ_TIME))
    (hs1 : s1 = { adv.1 with
        procs := updProc adv.1.procs pid
          (fun q => { q with total_cpu_time := q.total_cpu_time + adv.2.1 })
        total_syscall_time := adv.1.total_syscall_time + adv.2.1 })
    (hpre : ¬ s1.current_process = some pid ∨ adv.2.2 = true ∨ quantumOf s1 pid ≤ TOL) :
    cursorOf (execute_process s).procs pid = some (p.current_index + 1) ∧
    (execute_process s).sched = s.sched ∧
    (execute_process s).request_counter = s.request_counter ∧
    (execute_process s).cache.hits = s.cache.hits ∧
    (execute_process s).cache.misses = s.cache.misses := by
  rw [hcp] at hsA
  have hA : SysInert sA adv.1 := by rw [hadv]; exact sysInert_advance _ _
  obtain ⟨hsch, hrc, hhit, hmiss, hcur⟩ := hA
  have hscheq : adv.1.sched = s.sched := by rw [hsch, hsA]
  have hrceq : adv.1.request_counter = s.request_counter := by rw [hrc, hsA]
  have hhiteq : adv.1.cache.hits = s.cache.hits := by rw [hhit, hsA]
  have hmisseq : adv.1.cache.misses = s.cache.misses := by rw [hmiss, hsA]
  have hcursor : cursorOf (updProc adv.1.procs pid
      (fun q => { q with total_cpu_time := q.total_cpu_time + adv.2.1 })) pid
      = some (p.current_index + 1) := by
    rw [cursorOf_updProc]
    · rw [hcur pid, hsA]
      dsimp only
      simp only [cursorOf]
      rw [lookupProc_updProc_self s.procs pid
          (fun q => { q with current_index := q.current_index + 1 }) p (fun q => rfl) hlp]
      rfl
    · exact fun q => rfl
    · exact fun q => rfl
  rw [hs1] at hpre
  dsimp only at hpre
  rw [execute_process, hcp]
  dsimp only
  rw [hlp]
  dsimp only
  rw [dif_pos hw]
  rw [← hsA]
  rw [← hadv]
  by_cases hcpq : adv.1.current_process = some pid
  · rw [if_neg (not_not_intro hcpq),
        if_pos (hpre.resolve_left (not_not_intro hcpq))]
    refine ⟨?_, hscheq, hrceq, hhiteq, hmisseq⟩
    dsimp only
    rw [cursorOf_updProc]
    · exact hcursor
    · exact fun q => rfl
    · exact fun q => rfl
  · rw [if_pos hcpq]
    exact ⟨hcursor, hscheq, hrceq, hhiteq, hmisseq⟩

def c9_proc : Process := { mkProcess 1 [(10, false)] with remaining_quantum := 1/10 }

def c9_state : Sys :=
  { initSystem Policy.FIFO 0 [] with procs := [c9_proc], current_process := some 1 }

/-- Witness for C9 at a concrete state: the running process has `0.1 ms`
of quantum left, less than the `0.15 ms` syscall charge, so it is
preempted mid-charge; its cursor still advances to `1` while scheduler,
request counter and cache counters stay untouched. -/
theorem preempted_syscall_step_consumed_witness :
    c9_state.current_process = some 1 ∧
    (cursorOf (execute_process c9_state).procs 1 = some 1 ∧
     (execute_process c9_state).sched = c9_state.sched ∧
     (execute_process c9_state).request_counter = c9_state.request_counter ∧
     (execute_process c9_state).cache.hits = c9_state.cache.hits ∧
     (execute_process c9_state).cache.misses = c9_state.cache.misses) :=
  ⟨rfl, preempted_syscall_step_consumed c9_state 1 c9_proc _ _ _
      rfl rfl (by decide) rfl rfl rfl (by decide)⟩


/-! ## Claim C8 : determinism across runs and the global class counters -/

def c8_workload : List Process := [mkProcess 1 [(100, false)]]

def c8_run1 : Sys := run_simulation (initSystem Policy.FIFO 0 c8_workload)

def c8_run2 : Sys := run_simulation (initSystem Policy.FIFO c8_run1.request_counter c8_workload)

set_option maxRecDepth 4000 in
/-- Counterexample to C8: `System._request_counter` is a class attribute
that `__init__` never resets, so a second simulation of the very same
workload under the same policy starts numbering requests where the first
stopped (`c8_run1.request_counter = 1`) and its trace already differs
from the first run's. -/
theorem second_run_changes_trace :
    c8_run1.request_counter ≠ 0 ∧
    c8_run2.trace ≠ c8_run1.trace := by
  constructor
  · decide
  · decide

set_option maxRecDepth 4000 in
/-- C8 as amended: once the carried-over class-counter state is made an
explicit parameter, the simulation is a pure function of configuration,
workload, policy and counter state; the counter leak across successive
runs only renames requests — the two runs above disagree in their traces
yet report identical statistics (every field of `getStats` agrees). -/
theorem determinism_modulo_global_counters :
    (∀ (policy : Policy) (rc : Nat) (ps : List Process),
        run_simulation (initSystem policy rc ps) = run_simulation (initSystem policy rc ps)) ∧
    (getStats c8_run2).completed_requests = (getStats c8_run1).completed_requests ∧
    (getStats c8_run2).avg_seek_time = (getStats c8_run1).avg_seek_time ∧
    (getStats c8_run2).avg_rotational_latency = (getStats c8_run1).avg_rotational_latency ∧
    (getStats c8_run2).avg_transfer_time = (getStats c8_run1).avg_transfer_time ∧
    (getStats c8_run2).total_disk_time = (getStats c8_run1).total_disk_time ∧
    (getStats c8_run2).hits = (getStats c8_run1).hits ∧
    (getStats c8_run2).misses = (getStats c8_run1).misses ∧
    (getStats c8_run2).hit_rate = (getStats c8_run1).hit_rate ∧
    (getStats c8_run2).total_time = (getStats c8_run1).total_time ∧
    (getStats c8_run2).total_syscall_time = (getStats c8_run1).total_syscall_time ∧
    (getStats c8_run2).total_interrupt_time = (getStats c8_run1).total_interrupt_time ∧
    (getStats c8_run2).total_process_time = (getStats c8_run1).total_process_time ∧
    (getStats c8_run2).per_process = (getStats c8_run1).per_process := by
  refine ⟨fun policy rc ps => rfl, ?_, ?_, ?_, ?_, ?_, ?_, ?_, ?_, ?_, ?_, ?_, ?_, ?_⟩
  all_goals decide

/-! ## Claim C10 : a completed write cleans whatever buffer now holds its sector -/

def w10 : List Process :=
  [mkProcess 1 [(20000, false)], mkProcess 2 [(10, true)], mkProcess 3 [(510, false)],
   mkProcess 4 [(1010, false)], mkProcess 5 [(1510, false)], mkProcess 6 [(2010, false)],
   mkProcess 7 [(2510, false)], mkProcess 8 [(10, false)], mkProcess 9 [(10, true)]]

def r10 : Sys := run_simulation (initSystem Policy.FIFO 0 w10)

/-- The trace events that concern sector 10, interrupt handling, or cache
flushes, used to exhibit the C10 scenario inside the full trace. -/
def keep10 : TraceEvt → Bool
  | TraceEvt.syscallOp _ 10 _ => true
  | TraceEvt.cacheHit _ 10 => true
  | TraceEvt.cacheMiss 10 _ => true
  | TraceEvt.reqScheduled _ 10 _ => true
  | TraceEvt.diskInterrupt _ => true
  | TraceEvt.markedClean _ _ => true
  | TraceEvt.flushWrite _ _ => true
  | _ => false

set_option maxRecDepth 4000 in
/-- C10.  First part: `_handle_disk_interrupt` of a completed write clears
the dirty flag of whichever buffer is mapped to the request's sector at
completion time, whatever that buffer now holds.  Second part: in the
`w10` run the leak is real — pid 2 schedules write request 2 for sector
10 from buffer 1, the sector is later re-missed into buffer 2 (request
8), pid 9 then write-hits buffer 2 and dirties it, and the interrupt of
the old request 2 issues `markedClean 2 10`, clearing the dirty bit over
pid 9's data; no `flushWrite` event ever appears and the final buffer 2
still holds sector 10 and is clean, so pid 9's write is lost. -/
theorem interrupt_clears_current_sector_binding :
    (∀ (s : Sys) (r : DiskRequest), r.is_write = true →
        ∀ i, find_buffer s.cache r.sector = some i →
        ((handle_disk_interrupt s r).cache.store i).is_dirty = false) ∧
    r10.trace.filter keep10 =
      [TraceEvt.syscallOp 2 10 true, TraceEvt.cacheMiss 10 1, TraceEvt.reqScheduled 2 10 true,
       TraceEvt.syscallOp 8 10 false, TraceEvt.cacheMiss 10 2, TraceEvt.reqScheduled 8 10 false,
       TraceEvt.syscallOp 9 10 true, TraceEvt.cacheHit 2 10,
       TraceEvt.diskInterrupt 1, TraceEvt.diskInterrupt 2, TraceEvt.markedClean 2 10,
       TraceEvt.diskInterrupt 3, TraceEvt.diskInterrupt 4, TraceEvt.diskInterrupt 5,
       TraceEvt.diskInterrupt 6, TraceEvt.diskInterrupt 7, TraceEvt.diskInterrupt 8] ∧
    (r10.cache.store 2).is_dirty = false ∧
    (r10.cache.store 2).sector = some 10 ∧
    r10.crashed = false := by
  constructor
  · intro s r hwr i hfind
    rw [handle_disk_interrupt]
    dsimp only
    rcases hcp : s.current_process with _ | pid
    all_goals dsimp only
    all_goals rw [hfind]
    all_goals dsimp only
    all_goals rw [if_pos hwr]
    all_goals split
    all_goals dsimp only
    all_goals simp [setDirty, updStore]
  · refine ⟨?_, ?_, ?_, ?_⟩
    all_goals decide

def c10_req : DiskRequest := mkDiskRequest 99 10 true 1 0

set_option maxRecDepth 4000 in
/-- Witness for the conditional part of C10: the final cache of the `w10`
run maps sector 10 to buffer 2, and handling the interrupt of a fresh
write request for sector 10 leaves that buffer clean. -/
theorem interrupt_clears_current_sector_binding_witness :
    c10_req.is_write = true ∧
    find_buffer r10.cache c10_req.sector = some 2 ∧
    ((handle_disk_interrupt r10 c10_req).cache.store 2).is_dirty = false :=
  ⟨rfl, by decide, interrupt_clears_current_sector_binding.1 r10 c10_req rfl 2 (by decide)⟩

/-! ## Claim C6 : buffer acquisition never fails on a cache of size at least 1 -/

/-- Total number of buffer slots recorded across the free pool and the
three segments. -/
def totalLen (c : Cache) : Nat :=
  c.free_buffers.length + c.left_segment.length + c.middle_segment.length +
    c.right_segment.length

/-- The cache states the kernel can present to `access_buffer`: a freshly
constructed cache with at least one buffer, evolved by successful accesses
and by dirty-flag updates (the only cache mutations that precede any
access in the simulation; `remove_buffer_from_cache` runs only in the
final flush, after the last access). -/
inductive CacheReach : Cache → Prop where
  | init (size left_max middle_max : Nat) (h : 1 ≤ size) :
      CacheReach (initCache size left_max middle_max)
  | access (c : Cache) (sector : Nat) (is_write : Bool) (r : Nat × Bool × Bool × Cache)
      (hc : CacheReach c) (h : access_buffer c sector is_write = some r) :
      CacheReach r.2.2.2
  | mark (c : Cache) (i : Nat) (v : Bool) (hc : CacheReach c) :
      CacheReach (setDirty c i v)

theorem demoteLoop_lens (seg_max : Nat) (tag : Seg) (fuel : Nat) :
    ∀ (st : Nat → Buffer) (src dst : List Nat),
      (demoteLoop seg_max tag fuel st src dst).2.1.length +
        (demoteLoop seg_max tag fuel st src dst).2.2.length =
      src.length + dst.length := by
  induction fuel with
  | zero => intro st src dst; rfl
  | succ fuel ih =>
    intro st src dst
    rw [demoteLoop]
    split
    · split
      · next i hlast =>
        rw [ih]
        have hne : src ≠ [] := by
          intro hsrc
          rw [hsrc] at hlast
          simp at hlast
        have hpos : 1 ≤ src.length := List.length_pos.mpr hne
        rw [List.length_dropLast, List.length_cons]
        omega
      · rfl
    · rfl

theorem rebalance_totalLen (c : Cache) : totalLen (rebalance c) = totalLen c := by
  rw [rebalance]
  simp only [totalLen]
  have h1 := demoteLoop_lens c.left_max Seg.middle c.left_segment.length
    c.store c.left_segment c.middle_segment
  have h2 := demoteLoop_lens c.middle_max Seg.right
    (demoteLoop c.left_max Seg.middle c.left_segment.length
      c.store c.left_segment c.middle_segment).2.2.length
    (demoteLoop c.left_max Seg.middle c.left_segment.length
      c.store c.left_segment c.middle_segment).1
    (demoteLoop c.left_max Seg.middle c.left_segment.length
      c.store c.left_segment c.middle_segment).2.2
    c.right_segment
  omega

theorem move_to_left_totalLen_pos (c : Cache) (i : Nat) :
    1 ≤ totalLen (move_to_left c i) := by
  rw [move_to_left]
  rw [rebalance_totalLen]
  simp only [totalLen, List.length_cons]
  omega

theorem access_some_totalLen (c : Cache) (s : Nat) (w : Bool)
    (r : Nat × Bool × Bool × Cache) (h : access_buffer c s w = some r) :
    1 ≤ totalLen r.2.2.2 := by
  rw [access_buffer] at h
  rcases hfb : find_buffer c s with _ | i
  · rw [hfb] at h
    dsimp only at h
    rcases hgf : get_free_buffer { c with misses := c.misses + 1 } with _ | ⟨i, c2⟩
    · rw [hgf] at h
      cases h
    · rw [hgf] at h
      dsimp only at h
      cases h
      dsimp only
      rw [rebalance_totalLen]
      simp only [totalLen, List.length_cons]
      omega
  · rw [hfb] at h
    dsimp only at h
    cases h
    dsimp only
    split
    · simp only [totalLen, setDirty]
      exact move_to_left_totalLen_pos _ _
    · exact move_to_left_totalLen_pos _ _

theorem get_free_buffer_isSome (c : Cache) (h : 1 ≤ totalLen c) :
    (get_free_buffer c).isSome = true := by
  rw [get_free_buffer]
  cases hf : c.free_buffers with
  | cons i rest => rfl
  | nil =>
    dsimp only
    cases hr : c.right_segment with
    | cons r rs =>
      dsimp only
      cases hfl : List.filter (fun j => !(c.store j).is_dirty) (r :: rs) with
      | cons cb cbs =>
        dsimp only
        have hx : ∃ k ∈ r :: rs,
            (!(c.store k).is_dirty &&
              (c.store k).counter ==
                minCounter (c.store cb).counter
                  (List.map (fun j => (c.store j).counter) cbs)) = true := by
          have hmem := minCounter_mem (c.store cb).counter
            (List.map (fun j => (c.store j).counter) cbs)
          rcases List.mem_cons.mp hmem with hcb | hmap
          · have hin : cb ∈ List.filter (fun j => !(c.store j).is_dirty) (r :: rs) := by
              rw [hfl]
              exact List.mem_cons_self _ _
            refine ⟨cb, (List.mem_filter.mp hin).1, ?_⟩
            rw [(List.mem_filter.mp hin).2]
            simp only [Bool.true_and, beq_iff_eq]
            exact hcb.symm
          · obtain ⟨j, hj, hjc⟩ := List.mem_map.mp hmap
            have hin : j ∈ List.filter (fun j => !(c.store j).is_dirty) (r :: rs) := by
              rw [hfl]
              exact List.mem_cons_of_mem _ hj
            refine ⟨j, (List.mem_filter.mp hin).1, ?_⟩
            rw [(List.mem_filter.mp hin).2]
            simp only [Bool.true_and, beq_iff_eq]
            exact hjc
        obtain ⟨b, hb⟩ := findSome_of_exists _ _ hx
        rw [hb]
        rfl
      | nil =>
        dsimp only
        have hx : ∃ k ∈ r :: rs,
            ((c.store k).counter ==
              minCounter (c.store r).counter
                (List.map (fun j => (c.store j).counter) rs)) = true := by
          have hmem := minCounter_mem (c.store r).counter
            (List.map (fun j => (c.store j).counter) rs)
          rcases List.mem_cons.mp hmem with hhd | hmap
          · exact ⟨r, List.mem_cons_self _ _, by simp only [beq_iff_eq]; exact hhd.symm⟩
          · obtain ⟨j, hj, hjc⟩ := List.mem_map.mp hmap
            exact ⟨j, List.mem_cons_of_mem _ hj, by simp only [beq_iff_eq]; exact hjc⟩
        obtain ⟨b, hb⟩ := findSome_of_exists _ _ hx
        rw [hb]
        rfl
    | nil =>
      dsimp only
      cases hm : c.middle_segment.getLast? with
      | some i => rfl
      | none =>
        dsimp only
        cases hl : c.left_segment.getLast? with
        | some i => rfl
        | none =>
          exfalso
          have hmid : c.middle_segment = [] := by
            cases hml : c.middle_segment with
            | nil => rfl
            | cons a as =>
              rw [hml] at hm
              simp at hm
          have hleft : c.left_segment = [] := by
            cases hll : c.left_segment with
            | nil => rfl
            | cons a as =>
              rw [hll] at hl
              simp at hl
          simp [totalLen, hf, hr, hmid, hleft] at h

theorem access_isSome (c : Cache) (s : Nat) (w : Bool) (h : 1 ≤ totalLen c) :
    (access_buffer c s w).isSome = true := by
  rw [access_buffer]
  cases hfb : find_buffer c s with
  | some i => rfl
  | none =>
    dsimp only
    have h1 : (get_free_buffer { c with misses := c.misses + 1 }).isSome = true :=
      get_free_buffer_isSome _ (by simpa [totalLen] using h)
    cases hgf : get_free_buffer { c with misses := c.misses + 1 } with
    | none =>
      rw [hgf] at h1
      simp at h1
    | some pr =>
      obtain ⟨i, c2⟩ := pr
      rfl

theorem reach_totalLen (c : Cache) (hc : CacheReach c) : 1 ≤ totalLen c := by
  induction hc with
  | init size left_max middle_max h =>
    simpa [totalLen, initCache] using h
  | access c sector is_write r hc h ih =>
    exact access_some_totalLen c sector is_write r h
  | mark c i v hc ih =>
    simpa [totalLen, setDirty] using ih

/-- C6: on every cache built with at least one buffer and evolved by the
cache operations the kernel performs before accesses (successful accesses
and dirty-bit updates), `access_buffer` never returns `none`: buffer
acquisition always finds a buffer in the free pool or one of the three
segments, so the no-available-buffers failure branch is unreachable. -/
theorem no_buffer_exhaustion (c : Cache) (hc : CacheReach c)
    (sector : Nat) (is_write : Bool) :
    (access_buffer c sector is_write).isSome = true :=
  access_isSome c sector is_write (reach_totalLen c hc)

/-- Witness for C6 at the configured cache: accessing any sector of the
freshly built 5-buffer cache succeeds. -/
theorem no_buffer_exhaustion_witness :
    (access_buffer (initCache BUFFER_COUNT LFU_LEFT_SEGMENT_MAX LFU_MIDDLE_SEGMENT_MAX)
      123 true).isSome = true :=
  no_buffer_exhaustion _
    (CacheReach.init BUFFER_COUNT LFU_LEFT_SEGMENT_MAX LFU_MIDDLE_SEGMENT_MAX (by decide))
    123 true

end DiskSim
